import Mathlib

/-!
# SimpleVector: a shallow embedding of `simple_vector.h`

The container of `src/simple-vector/simple_vector.h` is embedded as a record of
its three private members.  Conventions of the embedding:

* An iterator (`Type*`) is the signed offset of the pointer from `array_.Get()`,
  an `Int`.  `begin()` is offset `0`, `end()` is offset `size_`.
* An operation that reads or writes outside the buffer it really owns, or that
  hands an invalid range to a standard algorithm, has undefined behaviour in
  C++; the embedding returns `none` there.
* `std::move` of an element is modelled as a copy: the moved-from slot is never
  part of the live range again before it is overwritten.
* `size_t` values are natural numbers.  A buffer never has more than
  `PTRDIFF_MAX` slots, so neither `size * 2` nor `size + 1` can wrap for a
  vector that exists.  The local `int pos_` of `Insert` and `Erase` is narrower
  than the pointer difference stored in it and is modelled with its 32-bit
  two's complement wrap-around.
* A constructor or an operation that involves two vectors returns both: the
  new or assigned vector first, the other one after the call second.  Each
  vector owns its buffer alone, so the buffers are values of the record.
* The `==` of the element type is a `BEq` instance and its `<` an `LT` instance
  with a decision procedure; what is proved for both says which properties of
  them it needs.
-/

namespace SimpleVec

/-! ## The buffer collaborator -/

/-- Modelled from the spec: `ArrayPtr<Type>` of `array_ptr.h` (the header is not
among the sources) is an owned buffer of a fixed number of slots with unchecked
indexed access.  It is the list of the values of its slots. -/
abbrev ArrayPtr (α : Type) := List α

/-- Modelled from the spec: `ArrayPtr(n)` of `array_ptr.h` "allocates exactly n
slots".  What the fresh slots hold is not specified, so it is a parameter:
slot `i` of a fresh buffer holds `junk i`. -/
def ArrayPtr.alloc {α : Type} (junk : Nat → α) (n : Nat) : ArrayPtr α :=
  (List.range n).map junk

/-! ## The standard algorithms used by the container -/

/-- One assignment `*d = std::move(*f)` from buffer `src` into buffer `dst`. -/
def assignSlot {α : Type} (src : List α) (f : Nat) (dst : List α) (d : Nat) : List α :=
  match src[f]? with
  | some x => dst.set d x
  | none => dst

/-- Loop of `std::move(first, last, d_first)` between two buffers: `k` remaining
assignments, lowest index first. -/
def moveAcross {α : Type} : Nat → List α → Nat → List α → Nat → List α
  | 0, _, _, dst, _ => dst
  | k + 1, src, f, dst, d => moveAcross k src (f + 1) (assignSlot src f dst d) (d + 1)

/-- Loop of `std::move(first, last, d_first)` inside one buffer: `k` remaining
assignments, lowest index first, each one reading the buffer as the previous
ones left it. -/
def moveUp {α : Type} : Nat → List α → Nat → Nat → List α
  | 0, buf, _, _ => buf
  | k + 1, buf, f, d => moveUp k (assignSlot buf f buf d) (f + 1) (d + 1)

/-- Loop of `std::move_backward(first, last, d_last)` inside one buffer: `k`
remaining assignments `*(--d_last) = std::move(*(--last))`, highest index
first. -/
def moveDown {α : Type} : Nat → List α → Nat → Nat → List α
  | 0, buf, _, _ => buf
  | k + 1, buf, l, dl => moveDown k (assignSlot buf (l - 1) buf (dl - 1)) (l - 1) (dl - 1)

/-- Loop of `std::generate(first, last, gen)` with `gen` returning `x`. -/
def fillUp {α : Type} (x : α) : Nat → List α → Nat → List α
  | 0, buf, _ => buf
  | k + 1, buf, f => fillUp x k (buf.set f x) (f + 1)

/-- The iterators `first <= last` delimit a range inside a buffer of `len`
slots. -/
def validRange (len : Nat) (first last : Int) : Prop :=
  0 ≤ first ∧ first ≤ last ∧ last ≤ (len : Int)

instance (len : Nat) (first last : Int) : Decidable (validRange len first last) :=
  inferInstanceAs (Decidable (0 ≤ first ∧ first ≤ last ∧ last ≤ (len : Int)))

/-- Call `std::move(first, last, d_first)` from `src` into another buffer
`dst`. -/
def std_move_into {α : Type} (src : List α) (first last : Int) (dst : List α) (d_first : Int) :
    Option (List α) :=
  if validRange src.length first last ∧ validRange dst.length d_first (d_first + (last - first)) then
    some (moveAcross (last - first).toNat src first.toNat dst d_first.toNat)
  else none

/-- Call `std::move(first, last, d_first)` with all three iterators into the
same buffer. -/
def std_move {α : Type} (buf : List α) (first last d_first : Int) : Option (List α) :=
  if validRange buf.length first last ∧ validRange buf.length d_first (d_first + (last - first)) then
    some (moveUp (last - first).toNat buf first.toNat d_first.toNat)
  else none

/-- Call `std::move_backward(first, last, d_last)` with all three iterators
into the same buffer. -/
def std_move_backward {α : Type} (buf : List α) (first last d_last : Int) : Option (List α) :=
  if validRange buf.length first last ∧ validRange buf.length (d_last - (last - first)) d_last then
    some (moveDown (last - first).toNat buf last.toNat d_last.toNat)
  else none

/-- Call `std::generate(first, last, [](){return Type();})`. -/
def std_generate {α : Type} [Inhabited α] (buf : List α) (first last : Int) : Option (List α) :=
  if validRange buf.length first last then
    some (fillUp default (last - first).toNat buf first.toNat)
  else none

/-- Assignment `*it = std::move(value)` through an iterator. -/
def store {α : Type} (buf : List α) (it : Int) (value : α) : Option (List α) :=
  if 0 ≤ it ∧ it < (buf.length : Int) then some (buf.set it.toNat value) else none

/-- Conversion of a pointer difference to `int`: reduction modulo `2^32` into
the range `[-2^31, 2^31)`. -/
def toInt (d : Int) : Int :=
  (d + 2147483648) % 4294967296 - 2147483648

/-- Call `std::fill(first, last, value)`. -/
def std_fill {α : Type} (buf : List α) (first last : Int) (value : α) : Option (List α) :=
  if validRange buf.length first last then
    some (fillUp value (last - first).toNat buf first.toNat)
  else none

/-- Call `std::copy(first, last, d_first)` from `src` into another buffer
`dst`: the loop of `std::move` with copy assignments. -/
def std_copy_into {α : Type} (src : List α) (first last : Int) (dst : List α) (d_first : Int) :
    Option (List α) :=
  if validRange src.length first last ∧ validRange dst.length d_first (d_first + (last - first)) then
    some (moveAcross (last - first).toNat src first.toNat dst d_first.toNat)
  else none

/-- Loop of `std::equal(first1, last1, first2)`: `k` remaining comparisons
`*first1 == *first2`, stopping with `false` at the first one that fails.  A
read outside a buffer ends the loop with no result. -/
def equalLoop {α : Type} [BEq α] : Nat → List α → Nat → List α → Nat → Option Bool
  | 0, _, _, _, _ => some true
  | k + 1, a, f1, b, f2 =>
    match a[f1]?, b[f2]? with
    | some x, some y => if !(x == y) then some false else equalLoop k a (f1 + 1) b (f2 + 1)
    | _, _ => none

/-- Call `std::equal(first1, last1, first2)`. -/
def std_equal {α : Type} [BEq α] (a : List α) (first1 last1 : Int) (b : List α) (first2 : Int) :
    Option Bool :=
  if validRange a.length first1 last1 ∧ 0 ≤ first2 then
    equalLoop (last1 - first1).toNat a first1.toNat b first2.toNat
  else none

/-- Loop of `std::lexicographical_compare(first1, last1, first2, last2)` with
`k = last1 - first1` elements left in the first range: while both ranges have
an element, `*first1 < *first2` ends with `true` and `*first2 < *first1` with
`false`; after the loop the result is `first1 == last1 && first2 != last2`. -/
def lexLoop {α : Type} [LT α] [DecidableRel (fun x y : α => x < y)] :
    Nat → List α → Nat → List α → Nat → Nat → Option Bool
  | 0, _, _, _, f2, l2 => some (decide (f2 ≠ l2))
  | k + 1, a, f1, b, f2, l2 =>
    if f2 = l2 then some false
    else
      match a[f1]?, b[f2]? with
      | some x, some y =>
        if x < y then some true
        else if y < x then some false
        else lexLoop k a (f1 + 1) b (f2 + 1) l2
      | _, _ => none

/-- Call `std::lexicographical_compare(first1, last1, first2, last2)`. -/
def std_lexicographical_compare {α : Type} [LT α] [DecidableRel (fun x y : α => x < y)]
    (a : List α) (first1 last1 : Int) (b : List α) (first2 last2 : Int) : Option Bool :=
  if validRange a.length first1 last1 ∧ validRange b.length first2 last2 then
    lexLoop (last1 - first1).toNat a first1.toNat b first2.toNat last2.toNat
  else none

/-! ## The container -/

/-- The private members of `SimpleVector<Type>`. -/
structure SimpleVector (α : Type) where
  array_ : ArrayPtr α
  size_ : Nat
  capacity_ : Nat
  deriving Repr, DecidableEq

namespace SimpleVector

variable {α : Type}

/-- Default constructor `SimpleVector() noexcept = default`. -/
def empty : SimpleVector α := { array_ := [], size_ := 0, capacity_ := 0 }

/-- Method `GetSize`. -/
def GetSize (v : SimpleVector α) : Nat := v.size_

/-- Method `GetCapacity`. -/
def GetCapacity (v : SimpleVector α) : Nat := v.capacity_

/-- Method `IsEmpty`: `!(bool)size_`. -/
def IsEmpty (v : SimpleVector α) : Bool := !(decide (v.size_ ≠ 0))

/-- Iterator `begin()`: `array_.Get()`. -/
def begin (_v : SimpleVector α) : Int := 0

/-- Iterator `end()`: `&array_[GetSize()]`. -/
def end_ (v : SimpleVector α) : Int := (v.GetSize : Int)

/-- The live elements: the slots `[0, size_)` in order. -/
def toList (v : SimpleVector α) : List α := v.array_.take v.size_

/-- Representation invariant of a vector that exists: the recorded size is
within the recorded capacity, and the buffer has at least that many slots. -/
def WF (v : SimpleVector α) : Prop :=
  v.size_ ≤ v.capacity_ ∧ v.capacity_ ≤ v.array_.length

instance (v : SimpleVector α) : Decidable v.WF :=
  inferInstanceAs (Decidable (v.size_ ≤ v.capacity_ ∧ v.capacity_ ≤ v.array_.length))

/-- Method `Clear`. -/
def Clear (v : SimpleVector α) : SimpleVector α := { v with size_ := 0 }

/-- Method `Resize(new_size)`. -/
def Resize [Inhabited α] (junk : Nat → α) (v : SimpleVector α) (new_size : Nat) :
    Option (SimpleVector α) :=
  if new_size > v.GetSize ∧ new_size > v.GetCapacity then do
    let tmp_array := ArrayPtr.alloc junk new_size
    let tmp_array ← std_move_into v.array_ v.begin v.end_ tmp_array 0
    -- array_.swap(tmp_array): from here on begin() points into the new buffer
    let v1 : SimpleVector α := { v with array_ := tmp_array }
    let a ← std_generate v1.array_ (v1.begin + v1.size_) (v1.begin + new_size)
    some { array_ := a, size_ := new_size, capacity_ := new_size }
  else if new_size > v.GetSize ∧ new_size ≤ v.capacity_ then do
    let a ← std_generate v.array_ (v.begin + v.size_) (v.begin + new_size)
    some { v with array_ := a, size_ := new_size }
  else if new_size < v.GetSize then
    some { v with size_ := new_size }
  else
    some v

/-- Method `Reserve(new_capacity)`. -/
def Reserve (junk : Nat → α) (v : SimpleVector α) (new_capacity : Nat) :
    Option (SimpleVector α) :=
  if new_capacity > v.GetCapacity then do
    let tmp_array := ArrayPtr.alloc junk new_capacity
    let tmp_array ← std_move_into v.array_ v.begin v.end_ tmp_array 0
    some { v with array_ := tmp_array, capacity_ := new_capacity }
  else
    some v

/-- Method `Insert(pos, value)`; `pos` is the offset of the iterator from
`begin()`.  The result is the vector after the call and the returned
iterator. -/
def Insert [Inhabited α] (junk : Nat → α) (v : SimpleVector α) (pos : Int) (value : α) :
    Option (SimpleVector α × Int) :=
  let size := v.GetSize
  let pos_ := toInt (pos - v.begin)
  if size ≥ v.GetCapacity then do
    let v1 ← Resize junk v (if size ≠ 0 then size * 2 else 1)
    let v2 : SimpleVector α := { v1 with size_ := size + 1 }
    let a ← std_move_backward v2.array_ (v2.begin + pos_) (v2.end_ - 1) v2.end_
    let a ← store a (v2.begin + pos_) value
    some ({ v2 with array_ := a }, v2.begin + pos_)
  else do
    let a ← std_move_backward v.array_ (v.begin + pos_) v.end_ (v.end_ + 1)
    let a ← store a (v.begin + pos_) value
    some ({ v with array_ := a, size_ := v.size_ + 1 }, v.begin + pos_)

/-- Method `PushBack(item)`: `Insert(end(), item)`, the returned iterator
dropped. -/
def PushBack [Inhabited α] (junk : Nat → α) (v : SimpleVector α) (item : α) :
    Option (SimpleVector α) :=
  (Insert junk v v.end_ item).map Prod.fst

/-- Method `PopBack`. -/
def PopBack (v : SimpleVector α) : SimpleVector α :=
  if !v.IsEmpty then { v with size_ := v.size_ - 1 } else v

/-- Method `Erase(pos)`; `pos` is the offset of the iterator from `begin()`.
The decrement of `size_` is reached with `size_ = 0` only after an invalid
range was handed to `std::move`. -/
def Erase (v : SimpleVector α) (pos : Int) : Option (SimpleVector α × Int) :=
  let pos_ := toInt (pos - v.begin)
  do
    let a ← std_move v.array_ (v.begin + pos_ + 1) v.end_ (v.begin + pos_)
    some ({ v with array_ := a, size_ := v.size_ - 1 }, v.begin + pos_)

/-- What a call of `At` or `operator[]` ends with. -/
inductive Access (α : Type) where
  | value (x : α)
  | out_of_range
  | undefined
  deriving Repr, DecidableEq

/-- Unchecked `operator[](index)`: `array_[index]`. -/
def index (v : SimpleVector α) (i : Nat) : Access α :=
  match v.array_[i]? with
  | some x => Access.value x
  | none => Access.undefined

/-- Checked `At(index)`: throws `std::out_of_range` when `index >= GetSize()`.
The result is the vector after the call and what the call ends with. -/
def At (v : SimpleVector α) (i : Nat) : SimpleVector α × Access α :=
  if i ≥ v.GetSize then (v, Access.out_of_range) else (v, v.index i)

/-- Repeated `PushBack` of the items of a list, in order. -/
def pushAll [Inhabited α] (junk : Nat → α) (v : SimpleVector α) : List α → Option (SimpleVector α)
  | [] => some v
  | x :: xs => (PushBack junk v x).bind fun v1 => pushAll junk v1 xs

/-- Constructor `SimpleVector(ReserveProxyObj)`: `Reserve(capacity_)` on the
default-initialised members. -/
def ofReserve (junk : Nat → α) (capacity_to_reserve : Nat) : Option (SimpleVector α) :=
  Reserve junk empty capacity_to_reserve

/-- The argument `size ? size*2 : 1` that the growth path of `Insert` hands to
`Resize`. -/
def grow (size : Nat) : Nat := if size ≠ 0 then size * 2 else 1

/-- The buffer the growth path of `Insert` works on after its call of `Resize`:
the fresh buffer of `grow size_` slots, the live elements moved into its
prefix, the slots after them default-constructed. -/
def grownBuffer [Inhabited α] (junk : Nat → α) (v : SimpleVector α) : List α :=
  fillUp default (grow v.size_ - v.size_)
    (moveAcross v.size_ v.array_ 0 (ArrayPtr.alloc junk (grow v.size_)) 0) v.size_

/-- On a vector filled by `PushBack` alone the capacity is `0` while the vector
is empty, and afterwards a power of two that is at least the size and less than
twice the size. -/
def Doubling (v : SimpleVector α) : Prop :=
  (v.size_ = 0 ∧ v.capacity_ = 0) ∨
    ∃ k : Nat, v.capacity_ = 2 ^ k ∧ v.size_ ≤ 2 ^ k ∧ 2 ^ k < 2 * v.size_

/-! ### Constructors, assignment and swap -/

/-- Constructor `SimpleVector(size_t size)`. -/
def ofSize [Inhabited α] (junk : Nat → α) (size : Nat) : Option (SimpleVector α) := do
  let v : SimpleVector α := { array_ := ArrayPtr.alloc junk size, size_ := size, capacity_ := size }
  let a ← std_generate v.array_ v.begin v.end_
  some { v with array_ := a }

/-- Constructor `SimpleVector(size_t size, const Type& value)`. -/
def ofSizeValue (junk : Nat → α) (size : Nat) (value : α) : Option (SimpleVector α) := do
  let v : SimpleVector α := { array_ := ArrayPtr.alloc junk size, size_ := size, capacity_ := size }
  let a ← std_fill v.array_ v.begin v.end_ value
  some { v with array_ := a }

/-- Constructor `SimpleVector(std::initializer_list<Type> init)`. -/
def ofInit (junk : Nat → α) (init : List α) : Option (SimpleVector α) := do
  let v : SimpleVector α :=
    { array_ := ArrayPtr.alloc junk init.length, size_ := init.length, capacity_ := init.length }
  let a ← std_move_into init 0 (init.length : Int) v.array_ v.begin
  some { v with array_ := a }

/-- Method `swap(other)`.  The result is this vector and `other` after the
call. -/
def swap (v other : SimpleVector α) : SimpleVector α × SimpleVector α :=
  ({ array_ := other.array_, size_ := other.size_, capacity_ := other.capacity_ },
   { array_ := v.array_, size_ := v.size_, capacity_ := v.capacity_ })

/-- Copy constructor `SimpleVector(const SimpleVector& other)`.  The result is
the new vector and `other` after the call. -/
def copyConstruct [Inhabited α] (junk : Nat → α) (other : SimpleVector α) :
    Option (SimpleVector α × SimpleVector α) := do
  let buffer ← ofSize junk other.size_
  let a ← std_copy_into other.array_ other.begin other.end_ buffer.array_ buffer.begin
  let buffer : SimpleVector α := { buffer with array_ := a }
  let (this, _) := swap empty buffer
  some (this, other)

/-- Move constructor `SimpleVector(SimpleVector&& other)`.  The result is the
new vector and `other` after the call. -/
def moveConstruct [Inhabited α] (junk : Nat → α) (other : SimpleVector α) :
    Option (SimpleVector α × SimpleVector α) := do
  let this ← Resize junk empty other.size_
  let a ← std_move_into other.array_ other.begin other.end_ this.array_ this.begin
  some ({ this with array_ := a }, { other with size_ := 0, capacity_ := 0 })

/-- Assignment `v[index] = value` through the reference that `operator[]`
returns. -/
def assign (v : SimpleVector α) (index : Nat) (value : α) : Option (SimpleVector α) := do
  let a ← store v.array_ (index : Int) value
  some { v with array_ := a }

/-! ### Comparison operators -/

/-- Free function `operator==`. -/
def op_eq [BEq α] (lhs rhs : SimpleVector α) : Option Bool :=
  if lhs.GetSize ≠ rhs.GetSize then some false
  else std_equal lhs.array_ lhs.begin lhs.end_ rhs.array_ rhs.begin

/-- Free function `operator!=`. -/
def op_ne [BEq α] (lhs rhs : SimpleVector α) : Option Bool :=
  (op_eq lhs rhs).map fun r => !r

/-- Free function `operator<`. -/
def op_lt [LT α] [DecidableRel (fun x y : α => x < y)] (lhs rhs : SimpleVector α) : Option Bool :=
  std_lexicographical_compare lhs.array_ lhs.begin lhs.end_ rhs.array_ rhs.begin rhs.end_

/-- Free function `operator<=`. -/
def op_le [LT α] [DecidableRel (fun x y : α => x < y)] (lhs rhs : SimpleVector α) : Option Bool :=
  (op_lt rhs lhs).map fun r => !r

/-- Free function `operator>`. -/
def op_gt [LT α] [DecidableRel (fun x y : α => x < y)] (lhs rhs : SimpleVector α) : Option Bool :=
  op_lt rhs lhs

/-- Free function `operator>=`. -/
def op_ge [LT α] [DecidableRel (fun x y : α => x < y)] (lhs rhs : SimpleVector α) : Option Bool :=
  (op_gt rhs lhs).map fun r => !r

/-- Copy assignment `operator=(const SimpleVector& rhs)`.  The result is this
vector and `rhs` after the call. -/
def copyAssign [Inhabited α] [BEq α] (junk : Nat → α) (v rhs : SimpleVector α) :
    Option (SimpleVector α × SimpleVector α) := do
  let differ ← op_ne v rhs
  if differ then
    let (tmp, rhs1) ← copyConstruct junk rhs
    let (v1, _) := swap v tmp
    some (v1, rhs1)
  else
    some (v, rhs)

/-- Move assignment `operator=(SimpleVector&& rhs)`.  The result is this
vector and `rhs` after the call. -/
def moveAssign [BEq α] (v rhs : SimpleVector α) : Option (SimpleVector α × SimpleVector α) := do
  let differ ← op_ne v rhs
  if differ then
    some (swap v rhs)
  else
    some (v, rhs)

/-! ### The vectors a program can hold -/

/-- The vectors produced by a constructor and then changed by any sequence of
operations; for the operations on two vectors both results are included.  With
`moved = false` the source of a move construction is left out, and with it
every vector whose history involves one. -/
inductive Reach [Inhabited α] [BEq α] (moved : Bool) : SimpleVector α → Prop where
  | ctor_default : Reach moved empty
  | ctor_size (junk : Nat → α) (n : Nat) (v : SimpleVector α) :
      ofSize junk n = some v → Reach moved v
  | ctor_size_value (junk : Nat → α) (n : Nat) (x : α) (v : SimpleVector α) :
      ofSizeValue junk n x = some v → Reach moved v
  | ctor_init_list (junk : Nat → α) (init : List α) (v : SimpleVector α) :
      ofInit junk init = some v → Reach moved v
  | ctor_reserve (junk : Nat → α) (n : Nat) (v : SimpleVector α) :
      ofReserve junk n = some v → Reach moved v
  | ctor_copy (junk : Nat → α) (o v o1 : SimpleVector α) :
      Reach moved o → copyConstruct junk o = some (v, o1) → Reach moved v
  | ctor_copy_source (junk : Nat → α) (o v o1 : SimpleVector α) :
      Reach moved o → copyConstruct junk o = some (v, o1) → Reach moved o1
  | ctor_move (junk : Nat → α) (o v o1 : SimpleVector α) :
      Reach moved o → moveConstruct junk o = some (v, o1) → Reach moved v
  | ctor_move_source (junk : Nat → α) (o v o1 : SimpleVector α) :
      moved = true → Reach moved o → moveConstruct junk o = some (v, o1) → Reach moved o1
  | clear (v : SimpleVector α) : Reach moved v → Reach moved v.Clear
  | resize (junk : Nat → α) (v : SimpleVector α) (n : Nat) (w : SimpleVector α) :
      Reach moved v → Resize junk v n = some w → Reach moved w
  | reserve (junk : Nat → α) (v : SimpleVector α) (n : Nat) (w : SimpleVector α) :
      Reach moved v → Reserve junk v n = some w → Reach moved w
  | push_back (junk : Nat → α) (v : SimpleVector α) (x : α) (w : SimpleVector α) :
      Reach moved v → PushBack junk v x = some w → Reach moved w
  | insert (junk : Nat → α) (v : SimpleVector α) (pos : Int) (x : α) (w : SimpleVector α)
      (it : Int) : Reach moved v → Insert junk v pos x = some (w, it) → Reach moved w
  | pop_back (v : SimpleVector α) : Reach moved v → Reach moved v.PopBack
  | erase (v : SimpleVector α) (pos : Int) (w : SimpleVector α) (it : Int) :
      Reach moved v → Erase v pos = some (w, it) → Reach moved w
  | write (v : SimpleVector α) (i : Nat) (x : α) (w : SimpleVector α) :
      Reach moved v → assign v i x = some w → Reach moved w
  | swap_this (a b : SimpleVector α) : Reach moved a → Reach moved b → Reach moved (swap a b).1
  | swap_other (a b : SimpleVector α) : Reach moved a → Reach moved b → Reach moved (swap a b).2
  | copy_assign_this (junk : Nat → α) (a b a1 b1 : SimpleVector α) :
      Reach moved a → Reach moved b → copyAssign junk a b = some (a1, b1) → Reach moved a1
  | copy_assign_rhs (junk : Nat → α) (a b a1 b1 : SimpleVector α) :
      Reach moved a → Reach moved b → copyAssign junk a b = some (a1, b1) → Reach moved b1
  | move_assign_this (a b a1 b1 : SimpleVector α) :
      Reach moved a → Reach moved b → moveAssign a b = some (a1, b1) → Reach moved a1
  | move_assign_rhs (a b a1 b1 : SimpleVector α) :
      Reach moved a → Reach moved b → moveAssign a b = some (a1, b1) → Reach moved b1

end SimpleVector

end SimpleVec

namespace SimpleVec

/-! ## The loops of the standard algorithms, slot by slot -/

theorem assignSlot_eq {α : Type} (src dst : List α) (f d : Nat) (h : f < src.length) :
    assignSlot src f dst d = dst.set d (src.get ⟨f, h⟩) := by
  simp [assignSlot, List.getElem?_eq_getElem h]

theorem length_assignSlot {α : Type} (src dst : List α) (f d : Nat) :
    (assignSlot src f dst d).length = dst.length := by
  unfold assignSlot
  split <;> simp

theorem getElem?_assignSlot {α : Type} (src dst : List α) (f d i : Nat)
    (hf : f < src.length) (hd : d < dst.length) :
    (assignSlot src f dst d)[i]? = if i = d then src[f]? else dst[i]? := by
  rw [assignSlot_eq src dst f d hf, List.getElem?_set]
  by_cases h : d = i
  · subst h
    simp [hd, List.getElem?_eq_getElem hf]
  · have h2 : ¬ i = d := fun e => h e.symm
    simp [h, h2]

theorem length_moveAcross {α : Type} (k : Nat) (src : List α) (f : Nat) (dst : List α) (d : Nat) :
    (moveAcross k src f dst d).length = dst.length := by
  induction k generalizing f dst d with
  | zero => rfl
  | succ k ih => simp [moveAcross, ih, length_assignSlot]

theorem length_moveUp {α : Type} (k : Nat) (buf : List α) (f d : Nat) :
    (moveUp k buf f d).length = buf.length := by
  induction k generalizing buf f d with
  | zero => rfl
  | succ k ih => simp [moveUp, ih, length_assignSlot]

theorem length_moveDown {α : Type} (k : Nat) (buf : List α) (l dl : Nat) :
    (moveDown k buf l dl).length = buf.length := by
  induction k generalizing buf l dl with
  | zero => rfl
  | succ k ih => simp [moveDown, ih, length_assignSlot]

theorem length_fillUp {α : Type} (x : α) (k : Nat) (buf : List α) (f : Nat) :
    (fillUp x k buf f).length = buf.length := by
  induction k generalizing buf f with
  | zero => rfl
  | succ k ih => simp [fillUp, ih]

/-- Slots of the destination after the loop of `std::move` between two
buffers. -/
theorem getElem?_moveAcross {α : Type} (k : Nat) (src : List α) (f : Nat) (dst : List α) (d i : Nat)
    (hs : f + k ≤ src.length) (hd : d + k ≤ dst.length) :
    (moveAcross k src f dst d)[i]? =
      if d ≤ i ∧ i < d + k then src[i - d + f]? else dst[i]? := by
  induction k generalizing f dst d with
  | zero =>
    have : ¬ (d ≤ i ∧ i < d + 0) := by omega
    rw [if_neg this, moveAcross]
  | succ k ih =>
    rw [moveAcross, ih (f + 1) _ (d + 1) (by omega) (by rw [length_assignSlot]; omega)]
    rw [getElem?_assignSlot src dst f d i (by omega) (by omega)]
    by_cases h1 : d + 1 ≤ i ∧ i < d + 1 + k
    · have h2 : d ≤ i ∧ i < d + (k + 1) := by omega
      have h3 : i - (d + 1) + (f + 1) = i - d + f := by omega
      simp only [h1, h2, h3, and_self, if_true]
    · by_cases h4 : i = d
      · subst h4
        have h2 : i ≤ i ∧ i < i + (k + 1) := by omega
        simp [h1, h2]
      · have h2 : ¬ (d ≤ i ∧ i < d + (k + 1)) := by omega
        rw [if_neg h1, if_neg h2, if_neg h4]

/-- Slots after the ascending loop of `std::move` inside one buffer, the
destination not after the source. -/
theorem getElem?_moveUp {α : Type} (k : Nat) (buf : List α) (f d i : Nat)
    (hfd : d ≤ f) (hs : f + k ≤ buf.length) :
    (moveUp k buf f d)[i]? =
      if d ≤ i ∧ i < d + k then buf[i + (f - d)]? else buf[i]? := by
  induction k generalizing buf f d with
  | zero =>
    have : ¬ (d ≤ i ∧ i < d + 0) := by omega
    rw [if_neg this, moveUp]
  | succ k ih =>
    rw [moveUp, ih _ (f + 1) (d + 1) (by omega) (by rw [length_assignSlot]; omega)]
    rw [getElem?_assignSlot buf buf f d i (by omega) (by omega),
      getElem?_assignSlot buf buf f d (i + (f + 1 - (d + 1))) (by omega) (by omega)]
    by_cases h1 : d + 1 ≤ i ∧ i < d + 1 + k
    · have h2 : d ≤ i ∧ i < d + (k + 1) := by omega
      have h3 : i + (f + 1 - (d + 1)) = i + (f - d) := by omega
      have h4 : ¬ i + (f - d) = d := by omega
      simp only [h1, h2, h3, h4, and_self, if_true, if_false]
    · by_cases h4 : i = d
      · subst h4
        have h2 : i ≤ i ∧ i < i + (k + 1) := by omega
        have h3 : i + (f - i) = f := by omega
        simp [h1, h2, h3]
      · have h2 : ¬ (d ≤ i ∧ i < d + (k + 1)) := by omega
        rw [if_neg h1, if_neg h2, if_neg h4]

/-- Slots after the descending loop of `std::move_backward` inside one buffer,
the destination not before the source. -/
theorem getElem?_moveDown {α : Type} (k : Nat) (buf : List α) (l dl i : Nat)
    (hk : k ≤ l) (hld : l ≤ dl) (hd : dl ≤ buf.length) :
    (moveDown k buf l dl)[i]? =
      if dl - k ≤ i ∧ i < dl then buf[i - (dl - l)]? else buf[i]? := by
  induction k generalizing buf l dl with
  | zero =>
    have : ¬ (dl - 0 ≤ i ∧ i < dl) := by omega
    rw [if_neg this, moveDown]
  | succ k ih =>
    rw [moveDown, ih _ (l - 1) (dl - 1) (by omega) (by omega) (by rw [length_assignSlot]; omega)]
    rw [getElem?_assignSlot buf buf (l - 1) (dl - 1) i (by omega) (by omega),
      getElem?_assignSlot buf buf (l - 1) (dl - 1) (i - (dl - 1 - (l - 1))) (by omega) (by omega)]
    by_cases h1 : dl - 1 - k ≤ i ∧ i < dl - 1
    · have h2 : dl - (k + 1) ≤ i ∧ i < dl := by omega
      have h3 : i - (dl - 1 - (l - 1)) = i - (dl - l) := by omega
      have h4 : ¬ i - (dl - l) = dl - 1 := by omega
      simp only [h1, h2, h3, h4, and_self, if_true, if_false]
    · by_cases h4 : i = dl - 1
      · subst h4
        have h2 : dl - (k + 1) ≤ dl - 1 ∧ dl - 1 < dl := by omega
        have h3 : dl - 1 - (dl - l) = l - 1 := by omega
        simp [h1, h2, h3]
      · have h2 : ¬ (dl - (k + 1) ≤ i ∧ i < dl) := by omega
        rw [if_neg h1, if_neg h2, if_neg h4]

/-- Slots after the loop of `std::generate`. -/
theorem getElem?_fillUp {α : Type} (x : α) (k : Nat) (buf : List α) (f i : Nat)
    (hs : f + k ≤ buf.length) :
    (fillUp x k buf f)[i]? = if f ≤ i ∧ i < f + k then some x else buf[i]? := by
  induction k generalizing buf f with
  | zero =>
    have : ¬ (f ≤ i ∧ i < f + 0) := by omega
    rw [if_neg this, fillUp]
  | succ k ih =>
    rw [fillUp, ih _ (f + 1) (by rw [List.length_set]; omega), List.getElem?_set]
    by_cases h1 : f + 1 ≤ i ∧ i < f + 1 + k
    · have h2 : f ≤ i ∧ i < f + (k + 1) := by omega
      simp only [h1, h2, and_self, if_true]
    · by_cases h4 : f = i
      · subst h4
        have h2 : f ≤ f ∧ f < f + (k + 1) := by omega
        have h5 : f < buf.length := by omega
        simp [h1, h2, h5]
      · have h2 : ¬ (f ≤ i ∧ i < f + (k + 1)) := by omega
        rw [if_neg h1, if_neg h2, if_neg h4]

end SimpleVec

namespace SimpleVec

/-! ## The calls of the standard algorithms on valid ranges -/

theorem length_alloc {α : Type} (junk : Nat → α) (n : Nat) :
    (ArrayPtr.alloc junk n).length = n := by
  simp [ArrayPtr.alloc]

theorem std_move_into_eq {α : Type} (src dst : List α) (f l d : Nat)
    (h1 : f ≤ l) (h2 : l ≤ src.length) (h3 : d + (l - f) ≤ dst.length) :
    std_move_into src (f : Int) (l : Int) dst (d : Int) = some (moveAcross (l - f) src f dst d) := by
  have hv : validRange src.length (f : Int) (l : Int) ∧
      validRange dst.length (d : Int) ((d : Int) + ((l : Int) - (f : Int))) := by
    unfold validRange; omega
  have hn : ((l : Int) - (f : Int)).toNat = l - f := by omega
  simp only [std_move_into, if_pos hv, hn, Int.toNat_ofNat]

theorem std_move_eq {α : Type} (buf : List α) (f l d : Nat)
    (h1 : f ≤ l) (h2 : l ≤ buf.length) (h3 : d + (l - f) ≤ buf.length) :
    std_move buf (f : Int) (l : Int) (d : Int) = some (moveUp (l - f) buf f d) := by
  have hv : validRange buf.length (f : Int) (l : Int) ∧
      validRange buf.length (d : Int) ((d : Int) + ((l : Int) - (f : Int))) := by
    unfold validRange; omega
  have hn : ((l : Int) - (f : Int)).toNat = l - f := by omega
  simp only [std_move, if_pos hv, hn, Int.toNat_ofNat]

theorem std_move_backward_eq {α : Type} (buf : List α) (f l dl : Nat)
    (h1 : f ≤ l) (h2 : l ≤ buf.length) (h3 : l - f ≤ dl) (h4 : dl ≤ buf.length) :
    std_move_backward buf (f : Int) (l : Int) (dl : Int) = some (moveDown (l - f) buf l dl) := by
  have hv : validRange buf.length (f : Int) (l : Int) ∧
      validRange buf.length ((dl : Int) - ((l : Int) - (f : Int))) (dl : Int) := by
    unfold validRange; omega
  have hn : ((l : Int) - (f : Int)).toNat = l - f := by omega
  simp only [std_move_backward, if_pos hv, hn, Int.toNat_ofNat]

theorem std_generate_eq {α : Type} [Inhabited α] (buf : List α) (f l : Nat)
    (h1 : f ≤ l) (h2 : l ≤ buf.length) :
    std_generate buf (f : Int) (l : Int) = some (fillUp default (l - f) buf f) := by
  have hv : validRange buf.length (f : Int) (l : Int) := by
    unfold validRange; omega
  have hn : ((l : Int) - (f : Int)).toNat = l - f := by omega
  simp only [std_generate, if_pos hv, hn, Int.toNat_ofNat]

theorem store_eq {α : Type} (buf : List α) (p : Nat) (x : α) (h : p < buf.length) :
    store buf (p : Int) x = some (buf.set p x) := by
  have hv : 0 ≤ (p : Int) ∧ (p : Int) < (buf.length : Int) := by omega
  simp only [store, if_pos hv, Int.toNat_ofNat]

/-- A destination range that starts before the buffer is not valid. -/
theorem std_move_backward_neg {α : Type} (buf : List α) (first last d_last : Int)
    (h : first < 0) : std_move_backward buf first last d_last = none := by
  have hv : ¬ (validRange buf.length first last ∧
      validRange buf.length (d_last - (last - first)) d_last) := by
    unfold validRange; omega
  simp only [std_move_backward, if_neg hv]

theorem std_move_neg {α : Type} (buf : List α) (first last d_first : Int)
    (h : d_first < 0) : std_move buf first last d_first = none := by
  have hv : ¬ (validRange buf.length first last ∧
      validRange buf.length d_first (d_first + (last - first))) := by
    unfold validRange; omega
  simp only [std_move, if_neg hv]

/-! ## The narrowing conversion to `int` -/

theorem toInt_of_lt (p : Nat) (h : p < 2147483648) : toInt (p : Int) = (p : Int) := by
  unfold toInt; omega

theorem toInt_neg_of_ge (p : Nat) (h1 : 2147483648 ≤ p) (h2 : p < 4294967296) :
    toInt (p : Int) < 0 := by
  unfold toInt; omega

end SimpleVec

namespace SimpleVec
namespace SimpleVector

variable {α : Type}

/-! ## Resize and Reserve, branch by branch -/

/-- Growth branch of `Resize`: a fresh buffer of exactly `k` slots. -/
theorem Resize_grow [Inhabited α] (junk : Nat → α) (v : SimpleVector α) (k : Nat)
    (hn : v.size_ < k) (hc : v.capacity_ < k) (hl : v.size_ ≤ v.array_.length) :
    Resize junk v k = some
      { array_ := fillUp default (k - v.size_)
          (moveAcross v.size_ v.array_ 0 (ArrayPtr.alloc junk k) 0) v.size_,
        size_ := k, capacity_ := k } := by
  have hb : k > v.size_ ∧ k > v.capacity_ := ⟨hn, hc⟩
  have hm := std_move_into_eq v.array_ (ArrayPtr.alloc junk k) 0 v.size_ 0 (Nat.zero_le _) hl
    (by rw [length_alloc]; omega)
  have hg := std_generate_eq (moveAcross v.size_ v.array_ 0 (ArrayPtr.alloc junk k) 0)
    v.size_ k (by omega) (by rw [length_moveAcross, length_alloc])
  simp only [Nat.sub_zero, Nat.cast_zero] at hm
  simp only [Resize, begin, end_, GetSize, GetCapacity, if_pos hb, hm, zero_add,
    Option.bind_eq_bind, Option.some_bind, hg]

/-- In-place branch of `Resize`: the exposed slots are default-constructed. -/
theorem Resize_inplace [Inhabited α] (junk : Nat → α) (v : SimpleVector α) (k : Nat)
    (hn : v.size_ < k) (hc : k ≤ v.capacity_) (hl : v.capacity_ ≤ v.array_.length) :
    Resize junk v k = some
      { array_ := fillUp default (k - v.size_) v.array_ v.size_,
        size_ := k, capacity_ := v.capacity_ } := by
  have hb : ¬ (k > v.size_ ∧ k > v.capacity_) := by omega
  have hb2 : k > v.size_ ∧ k ≤ v.capacity_ := ⟨hn, hc⟩
  have hg := std_generate_eq v.array_ v.size_ k (by omega) (by omega)
  simp only [Resize, GetSize, GetCapacity, if_neg hb, if_pos hb2, begin, zero_add, hg,
    Option.bind_eq_bind, Option.some_bind]

/-- Shrinking branch of `Resize`, and the call with the current size. -/
theorem Resize_shrink [Inhabited α] (junk : Nat → α) (v : SimpleVector α) (k : Nat)
    (hn : k ≤ v.size_) :
    Resize junk v k = some { v with size_ := k } := by
  have hb : ¬ (k > v.size_ ∧ k > v.capacity_) := by omega
  have hb2 : ¬ (k > v.size_ ∧ k ≤ v.capacity_) := by omega
  simp only [Resize, GetSize, GetCapacity, if_neg hb, if_neg hb2]
  by_cases h : k < v.size_
  · simp only [if_pos h]
  · have : k = v.size_ := by omega
    subst this
    simp only [if_neg h]

/-- Growth branch of `Reserve`. -/
theorem Reserve_grow (junk : Nat → α) (v : SimpleVector α) (k : Nat)
    (hc : v.capacity_ < k) (hn : v.size_ ≤ k) (hl : v.size_ ≤ v.array_.length) :
    Reserve junk v k = some
      { array_ := moveAcross v.size_ v.array_ 0 (ArrayPtr.alloc junk k) 0,
        size_ := v.size_, capacity_ := k } := by
  have hb : k > v.capacity_ := hc
  have hm := std_move_into_eq v.array_ (ArrayPtr.alloc junk k) 0 v.size_ 0 (Nat.zero_le _) hl
    (by rw [length_alloc]; omega)
  simp only [Nat.sub_zero, Nat.cast_zero] at hm
  simp only [Reserve, begin, end_, GetSize, GetCapacity, if_pos hb, hm, Option.bind_eq_bind,
    Option.some_bind]

theorem Reserve_noop (junk : Nat → α) (v : SimpleVector α) (k : Nat)
    (hc : k ≤ v.capacity_) : Reserve junk v k = some v := by
  have hb : ¬ k > v.capacity_ := by omega
  simp only [Reserve, GetCapacity, if_neg hb]

end SimpleVector
end SimpleVec

namespace SimpleVec

/-! ## Shifting a live range by one slot -/

/-- Slot `i` of a sequence with `x` inserted before index `p`. -/
theorem getElem?_take_cons_drop {α : Type} (s : List α) (p i : Nat) (x : α) (hp : p ≤ s.length) :
    (s.take p ++ x :: s.drop p)[i]? =
      if i < p then s[i]? else if i = p then some x else s[i - 1]? := by
  have hl : (s.take p).length = p := by simp; omega
  rw [List.getElem?_append, hl]
  by_cases h1 : i < p
  · simp [h1, List.getElem?_take]
  · rw [if_neg h1, if_neg h1, List.getElem?_cons]
    by_cases h2 : i = p
    · subst h2; simp
    · have h3 : ¬ i - p = 0 := by omega
      have h4 : p + (i - p - 1) = i - 1 := by omega
      rw [if_neg h3, if_neg h2, List.getElem?_drop, h4]

/-- The live range after the backward shift of `[p, n)` by one slot and the
store of `x` at `p`, in a buffer `b` that agrees with `a` on `[0, n)`. -/
theorem take_set_moveDown {α : Type} (a b : List α) (n p : Nat) (x : α)
    (hp : p ≤ n) (hb : n + 1 ≤ b.length) (hab : ∀ j, j < n → b[j]? = a[j]?)
    (ha : n ≤ a.length) :
    ((moveDown (n - p) b n (n + 1)).set p x).take (n + 1) =
      (a.take n).take p ++ x :: (a.take n).drop p := by
  apply List.ext_getElem?
  intro i
  have hlen : (a.take n).length = n := by simp; omega
  rw [getElem?_take_cons_drop (a.take n) p i x (by omega), List.getElem?_take,
    List.getElem?_set, length_moveDown,
    getElem?_moveDown (n - p) b n (n + 1) i (by omega) (by omega) hb]
  by_cases h1 : i < p
  · have h2 : i < n + 1 := by omega
    have h3 : ¬ p = i := by omega
    have h4 : ¬ (n + 1 - (n - p) ≤ i ∧ i < n + 1) := by omega
    rw [if_pos h1, if_pos h2, if_neg h3, if_neg h4, hab i (by omega), List.getElem?_take,
      if_pos (by omega)]
  · rw [if_neg h1]
    by_cases h2 : i = p
    · subst h2
      have h3 : i < b.length := by omega
      rw [if_pos (by omega), if_pos rfl, if_pos h3, if_pos rfl]
    · rw [if_neg h2]
      have h3 : ¬ p = i := fun e => h2 e.symm
      by_cases h4 : i < n + 1
      · have h5 : n + 1 - (n - p) ≤ i ∧ i < n + 1 := by omega
        have h6 : i - (n + 1 - n) = i - 1 := by omega
        rw [if_pos h4, if_neg h3, if_pos h5, h6, hab (i - 1) (by omega), List.getElem?_take,
          if_pos (by omega)]
      · rw [if_neg h4, List.getElem?_take, if_neg (by omega)]

/-- The live range after the forward shift of `[p + 1, n)` by one slot. -/
theorem take_moveUp {α : Type} (a : List α) (n p : Nat) (hp : p < n) (ha : n ≤ a.length) :
    (moveUp (n - (p + 1)) a (p + 1) p).take (n - 1) = (a.take n).eraseIdx p := by
  apply List.ext_getElem?
  intro i
  rw [List.getElem?_eraseIdx, List.getElem?_take, List.getElem?_take, List.getElem?_take,
    getElem?_moveUp (n - (p + 1)) a (p + 1) p i (by omega) (by omega)]
  have h0 : p + 1 - p = 1 := by omega
  rw [h0]
  by_cases h1 : i < p
  · have h4 : ¬ (p ≤ i ∧ i < p + (n - (p + 1))) := by omega
    rw [if_pos h1, if_pos (by omega), if_neg h4, if_pos (by omega)]
  · rw [if_neg h1]
    by_cases h2 : i < n - 1
    · have h4 : p ≤ i ∧ i < p + (n - (p + 1)) := by omega
      rw [if_pos h2, if_pos h4, if_pos (by omega)]
    · rw [if_neg h2, if_neg (by omega)]

end SimpleVec

namespace SimpleVec
namespace SimpleVector

variable {α : Type}

/-! ## Insert and Erase, path by path -/

theorem grow_gt (n : Nat) : n < grow n := by
  unfold grow; split <;> omega

theorem length_grownBuffer [Inhabited α] (junk : Nat → α) (v : SimpleVector α) :
    (grownBuffer junk v).length = grow v.size_ := by
  simp [grownBuffer, length_fillUp, length_moveAcross, length_alloc]

theorem getElem?_grownBuffer [Inhabited α] (junk : Nat → α) (v : SimpleVector α) (j : Nat)
    (hl : v.size_ ≤ v.array_.length) (hj : j < v.size_) :
    (grownBuffer junk v)[j]? = v.array_[j]? := by
  have hg := grow_gt v.size_
  unfold grownBuffer
  rw [getElem?_fillUp _ _ _ _ _ (by rw [length_moveAcross, length_alloc]; omega),
    if_neg (by omega),
    getElem?_moveAcross _ _ _ _ _ _ (by omega) (by rw [length_alloc]; omega),
    if_pos (by omega)]
  simp

/-- Growth path of `Insert` at a position that fits `int`. -/
theorem Insert_grow [Inhabited α] (junk : Nat → α) (v : SimpleVector α) (p : Nat) (x : α)
    (hc : v.capacity_ ≤ v.size_) (hl : v.size_ ≤ v.array_.length)
    (hp : p ≤ v.size_) (hi : p < 2147483648) :
    Insert junk v (p : Int) x = some
      ({ array_ := (moveDown (v.size_ - p) (grownBuffer junk v) v.size_ (v.size_ + 1)).set p x,
         size_ := v.size_ + 1, capacity_ := grow v.size_ }, (p : Int)) := by
  have hg := grow_gt v.size_
  have hb : v.size_ ≥ v.capacity_ := hc
  have hr := Resize_grow junk v (grow v.size_) hg (by omega) hl
  have hlen := length_grownBuffer junk v
  have hm := std_move_backward_eq (grownBuffer junk v) p v.size_ (v.size_ + 1) hp (by omega)
    (by omega) (by omega)
  have hs := store_eq (moveDown (v.size_ - p) (grownBuffer junk v) v.size_ (v.size_ + 1)) p x
    (by rw [length_moveDown]; omega)
  have e1 : ((v.size_ + 1 : Nat) : Int) - 1 = (v.size_ : Int) := by omega
  unfold grow at hr
  simp only [Insert, GetSize, GetCapacity, begin, end_, sub_zero, zero_add, if_pos hb,
    toInt_of_lt p hi, hr, Option.bind_eq_bind, Option.some_bind, e1]
  rw [show (fillUp default ((if v.size_ ≠ 0 then v.size_ * 2 else 1) - v.size_)
      (moveAcross v.size_ v.array_ 0
        (ArrayPtr.alloc junk (if v.size_ ≠ 0 then v.size_ * 2 else 1)) 0) v.size_)
      = grownBuffer junk v from rfl]
  simp only [hm, Option.some_bind, hs]
  rfl

/-- Path of `Insert` with spare capacity, at a position that fits `int`. -/
theorem Insert_spare [Inhabited α] (junk : Nat → α) (v : SimpleVector α) (p : Nat) (x : α)
    (hc : v.size_ < v.capacity_) (hl : v.capacity_ ≤ v.array_.length)
    (hp : p ≤ v.size_) (hi : p < 2147483648) :
    Insert junk v (p : Int) x = some
      ({ array_ := (moveDown (v.size_ - p) v.array_ v.size_ (v.size_ + 1)).set p x,
         size_ := v.size_ + 1, capacity_ := v.capacity_ }, (p : Int)) := by
  have hb : ¬ v.size_ ≥ v.capacity_ := by omega
  have hm := std_move_backward_eq v.array_ p v.size_ (v.size_ + 1) hp (by omega)
    (by omega) (by omega)
  have hs := store_eq (moveDown (v.size_ - p) v.array_ v.size_ (v.size_ + 1)) p x
    (by rw [length_moveDown]; omega)
  have e1 : (v.size_ : Int) + 1 = ((v.size_ + 1 : Nat) : Int) := by omega
  simp only [Insert, GetSize, GetCapacity, begin, end_, sub_zero, zero_add, if_neg hb,
    toInt_of_lt p hi, Option.bind_eq_bind, e1, hm, Option.some_bind, hs]

/-- Method `Erase` at a position that fits `int`. -/
theorem Erase_eq (v : SimpleVector α) (p : Nat)
    (hl : v.size_ ≤ v.array_.length) (hp : p < v.size_) (hi : p < 2147483648) :
    Erase v (p : Int) = some
      ({ array_ := moveUp (v.size_ - (p + 1)) v.array_ (p + 1) p,
         size_ := v.size_ - 1, capacity_ := v.capacity_ }, (p : Int)) := by
  have hm := std_move_eq v.array_ (p + 1) v.size_ p (by omega) hl (by omega)
  have e1 : (p : Int) + 1 = ((p + 1 : Nat) : Int) := by omega
  simp only [Erase, GetSize, begin, end_, sub_zero, zero_add, toInt_of_lt p hi, e1, hm,
    Option.bind_eq_bind, Option.some_bind]

/-- A position whose `int` value is negative makes `Insert` shift a range that
starts before the buffer. -/
theorem Insert_neg [Inhabited α] (junk : Nat → α) (v : SimpleVector α) (pos : Int) (x : α)
    (h : toInt pos < 0) : Insert junk v pos x = none := by
  simp only [Insert, begin, sub_zero, zero_add, Option.bind_eq_bind]
  split
  · cases Resize junk v (if v.GetSize ≠ 0 then v.GetSize * 2 else 1) with
    | none => rfl
    | some v1 => simp only [Option.some_bind, std_move_backward_neg _ _ _ _ h, Option.none_bind]
  · simp only [std_move_backward_neg _ _ _ _ h, Option.none_bind]

/-- A position whose `int` value is negative makes `Erase` move into a range
that starts before the buffer. -/
theorem Erase_neg (v : SimpleVector α) (pos : Int)
    (h : toInt pos < 0) : Erase v pos = none := by
  simp only [Erase, begin, sub_zero, zero_add, Option.bind_eq_bind,
    std_move_neg _ _ _ _ h, Option.none_bind]

end SimpleVector
end SimpleVec

namespace SimpleVec
namespace SimpleVector

variable {α : Type}

/-! ## Insert and Erase on vectors whose positions fit `int` -/

theorem grow_eq_max (n : Nat) : grow n = max 1 (2 * n) := by
  unfold grow; split <;> omega

/-- Method `Insert` at a position below `2^31`: the call returns, the live sequence
gets `x` before index `p`, the size grows by one, the returned iterator is the
given one, the capacity doubles (or becomes 1) exactly on a full vector, and
the representation invariant is kept. -/
theorem Insert_of_fits [Inhabited α] (junk : Nat → α) (v : SimpleVector α) (p : Nat) (x : α)
    (hwf : v.WF) (hp : p ≤ v.size_) (hi : p < 2147483648) :
    ∃ w : SimpleVector α, Insert junk v (p : Int) x = some (w, (p : Int)) ∧
      w.size_ = v.size_ + 1 ∧
      w.toList = v.toList.take p ++ x :: v.toList.drop p ∧
      w.capacity_ = (if v.size_ = v.capacity_ then max 1 (2 * v.size_) else v.capacity_) ∧
      w.WF := by
  obtain ⟨h1, h2⟩ := hwf
  by_cases hc : v.size_ = v.capacity_
  · have hg := grow_gt v.size_
    refine ⟨_, Insert_grow junk v p x (by omega) (by omega) hp hi, rfl, ?_, ?_, ?_⟩
    · exact take_set_moveDown v.array_ (grownBuffer junk v) v.size_ p x hp
        (by rw [length_grownBuffer]; omega)
        (fun j hj => getElem?_grownBuffer junk v j (by omega) hj) (by omega)
    · simp only [if_pos hc, grow_eq_max]
    · refine ⟨?_, ?_⟩
      · show v.size_ + 1 ≤ grow v.size_
        omega
      · show grow v.size_ ≤ ((moveDown (v.size_ - p) (grownBuffer junk v) v.size_
          (v.size_ + 1)).set p x).length
        rw [List.length_set, length_moveDown, length_grownBuffer]
  · refine ⟨_, Insert_spare junk v p x (by omega) h2 hp hi, rfl, ?_, ?_, ?_⟩
    · exact take_set_moveDown v.array_ v.array_ v.size_ p x hp (by omega)
        (fun j _ => rfl) (by omega)
    · simp only [if_neg hc]
    · refine ⟨?_, ?_⟩
      · show v.size_ + 1 ≤ v.capacity_
        omega
      · show v.capacity_ ≤ ((moveDown (v.size_ - p) v.array_ v.size_
          (v.size_ + 1)).set p x).length
        rw [List.length_set, length_moveDown]
        exact h2

/-- Method `Erase` at a position below `2^31`: the call returns, the element at index
`p` leaves the live sequence, the size drops by one, the capacity stays, the
returned iterator is the given one. -/
theorem Erase_of_fits (v : SimpleVector α) (p : Nat)
    (hwf : v.WF) (hp : p < v.size_) (hi : p < 2147483648) :
    ∃ w : SimpleVector α, Erase v (p : Int) = some (w, (p : Int)) ∧
      w.size_ = v.size_ - 1 ∧
      w.toList = v.toList.eraseIdx p ∧
      w.capacity_ = v.capacity_ ∧
      w.WF := by
  obtain ⟨h1, h2⟩ := hwf
  refine ⟨_, Erase_eq v p (by omega) hp hi, rfl, ?_, rfl, ?_⟩
  · exact take_moveUp v.array_ v.size_ p hp (by omega)
  · refine ⟨?_, ?_⟩
    · show v.size_ - 1 ≤ v.capacity_
      omega
    · show v.capacity_ ≤ (moveUp (v.size_ - (p + 1)) v.array_ (p + 1) p).length
      rw [length_moveUp]
      exact h2

theorem length_toList (v : SimpleVector α) (h : v.size_ ≤ v.array_.length) :
    v.toList.length = v.size_ := by
  simp [toList]; omega

/-- Erasing index `p` undoes the insertion of `x` before index `p`. -/
theorem eraseIdx_take_cons_drop (s : List α) (p : Nat) (x : α) (hp : p ≤ s.length) :
    (s.take p ++ x :: s.drop p).eraseIdx p = s := by
  apply List.ext_getElem?
  intro i
  rw [List.getElem?_eraseIdx]
  by_cases h1 : i < p
  · rw [if_pos h1, getElem?_take_cons_drop s p i x hp, if_pos h1]
  · rw [if_neg h1, getElem?_take_cons_drop s p (i + 1) x hp, if_neg (by omega),
      if_neg (by omega), Nat.add_sub_cancel]

/-- First `Insert`, then `Erase` at the same position below `2^31` gives back the size
and the live sequence. -/
theorem Insert_Erase_of_fits [Inhabited α] (junk : Nat → α) (v : SimpleVector α) (p : Nat)
    (x : α) (hwf : v.WF) (hp : p ≤ v.size_) (hi : p < 2147483648) :
    ∃ w u : SimpleVector α, Insert junk v (p : Int) x = some (w, (p : Int)) ∧
      Erase w (p : Int) = some (u, (p : Int)) ∧
      u.size_ = v.size_ ∧ u.toList = v.toList := by
  obtain ⟨w, hw, hws, hwl, _, hwwf⟩ := Insert_of_fits junk v p x hwf hp hi
  obtain ⟨u, hu, hus, hul, _, _⟩ := Erase_of_fits w p hwwf (by omega) hi
  refine ⟨w, u, hw, hu, by omega, ?_⟩
  rw [hul, hwl]
  exact eraseIdx_take_cons_drop v.toList p x
    (by rw [length_toList v (by have := hwf.1; have := hwf.2; omega)]; exact hp)

end SimpleVector
end SimpleVec

namespace SimpleVec
namespace SimpleVector

variable {α : Type}

/-! ## Repeated PushBack -/

/-- Method `PushBack` on a vector of fewer than `2^31` elements. -/
theorem PushBack_of_fits [Inhabited α] (junk : Nat → α) (v : SimpleVector α) (x : α)
    (hwf : v.WF) (hi : v.size_ < 2147483648) :
    ∃ w : SimpleVector α, PushBack junk v x = some w ∧
      w.size_ = v.size_ + 1 ∧
      w.toList = v.toList ++ [x] ∧
      w.capacity_ = (if v.size_ = v.capacity_ then max 1 (2 * v.size_) else v.capacity_) ∧
      w.WF := by
  obtain ⟨w, hw, hs, hl, hc, hwf2⟩ := Insert_of_fits junk v v.size_ x hwf (Nat.le_refl _) hi
  refine ⟨w, ?_, hs, ?_, hc, hwf2⟩
  · simp only [PushBack, end_, GetSize, hw, Option.map_some']
  · have hlen := length_toList v (by have := hwf.1; have := hwf.2; omega)
    rw [hl, List.take_of_length_le (by omega), List.drop_of_length_le (by omega)]

/-- Method `PushBack` on a vector of `2^31` up to `2^32 - 1` elements: the `int`
value of the position of `end()` is negative. -/
theorem PushBack_beyond_int [Inhabited α] (junk : Nat → α) (v : SimpleVector α) (x : α)
    (h1 : 2147483648 ≤ v.size_) (h2 : v.size_ < 4294967296) :
    PushBack junk v x = none := by
  have h := Insert_neg junk v (v.size_ : Int) x (toInt_neg_of_ge v.size_ h1 h2)
  simp only [PushBack, end_, GetSize, h, Option.map_none']

theorem pushAll_append [Inhabited α] (junk : Nat → α) (v : SimpleVector α) (xs ys : List α) :
    pushAll junk v (xs ++ ys) = (pushAll junk v xs).bind fun w => pushAll junk w ys := by
  induction xs generalizing v with
  | nil => rfl
  | cons x xs ih =>
    simp only [List.cons_append, pushAll]
    cases PushBack junk v x with
    | none => rfl
    | some w => exact ih w

theorem Doubling_step (v w : SimpleVector α) (hd : Doubling v) (hs : w.size_ = v.size_ + 1)
    (hc : w.capacity_ = (if v.size_ = v.capacity_ then max 1 (2 * v.size_) else v.capacity_)) :
    Doubling w := by
  right
  rcases hd with ⟨h0, h1⟩ | ⟨k, hk, h1, h2⟩
  · refine ⟨0, ?_, ?_, ?_⟩
    · rw [hc, if_pos (by omega), h0]; rfl
    · omega
    · omega
  · by_cases he : v.size_ = v.capacity_
    · refine ⟨k + 1, ?_, ?_, ?_⟩
      · rw [hc, if_pos he, pow_succ]; omega
      · rw [pow_succ]; omega
      · rw [pow_succ]; omega
    · refine ⟨k, ?_, ?_, ?_⟩
      · rw [hc, if_neg he, hk]
      · omega
      · omega

/-- Pushing the items of `xs` onto a vector, as long as the size stays within
`2^31`. -/
theorem pushAll_of_fits [Inhabited α] (junk : Nat → α) (xs : List α) (v : SimpleVector α)
    (hwf : v.WF) (hd : Doubling v) (hi : v.size_ + xs.length ≤ 2147483648) :
    ∃ w : SimpleVector α, pushAll junk v xs = some w ∧ w.WF ∧ Doubling w ∧
      w.size_ = v.size_ + xs.length ∧ w.toList = v.toList ++ xs := by
  induction xs generalizing v with
  | nil => exact ⟨v, rfl, hwf, hd, rfl, by simp⟩
  | cons x xs ih =>
    simp only [List.length_cons] at hi
    obtain ⟨u, hu, hs, hl, hc, hwf2⟩ := PushBack_of_fits junk v x hwf (by omega)
    obtain ⟨w, hw, hwf3, hd3, hs3, hl3⟩ := ih u hwf2 (Doubling_step v u hd hs hc) (by omega)
    refine ⟨w, ?_, hwf3, hd3, ?_, ?_⟩
    · simp only [pushAll, hu, Option.some_bind, hw]
    · simp only [List.length_cons]; omega
    · rw [hl3, hl, List.append_assoc]; rfl

/-- Pushing the items of `xs` onto a vector that has room for them, as long as
the size stays within `2^31`: the capacity never changes. -/
theorem pushAll_spare [Inhabited α] (junk : Nat → α) (xs : List α) (v : SimpleVector α)
    (hwf : v.WF) (hr : v.size_ + xs.length ≤ v.capacity_)
    (hi : v.size_ + xs.length ≤ 2147483648) :
    ∃ w : SimpleVector α, pushAll junk v xs = some w ∧ w.WF ∧
      w.capacity_ = v.capacity_ ∧ w.size_ = v.size_ + xs.length ∧
      w.toList = v.toList ++ xs := by
  induction xs generalizing v with
  | nil => exact ⟨v, rfl, hwf, rfl, rfl, by simp⟩
  | cons x xs ih =>
    simp only [List.length_cons] at hi hr
    obtain ⟨u, hu, hs, hl, hc, hwf2⟩ := PushBack_of_fits junk v x hwf (by omega)
    rw [if_neg (by omega)] at hc
    obtain ⟨w, hw, hwf3, hc3, hs3, hl3⟩ := ih u hwf2 (by omega) (by omega)
    refine ⟨w, ?_, hwf3, by omega, ?_, ?_⟩
    · simp only [pushAll, hu, Option.some_bind, hw]
    · simp only [List.length_cons]; omega
    · rw [hl3, hl, List.append_assoc]; rfl

theorem WF_empty : (empty : SimpleVector α).WF := by
  simp [WF, empty]

theorem Doubling_empty : Doubling (empty : SimpleVector α) := Or.inl ⟨rfl, rfl⟩

theorem toList_empty : (empty : SimpleVector α).toList = [] := rfl

/-- The constructor from a reserve hint `k >= 1`: an empty vector of capacity
`k`. -/
theorem ofReserve_eq (junk : Nat → α) (k : Nat) (hk : 1 ≤ k) :
    ofReserve junk k = some { array_ := ArrayPtr.alloc junk k, size_ := 0, capacity_ := k } := by
  have h := Reserve_grow junk (empty : SimpleVector α) k (by simp [empty]; omega)
    (by simp [empty]) (by simp [empty])
  simpa [ofReserve, empty, moveAcross] using h

end SimpleVector
end SimpleVec

namespace SimpleVec
namespace SimpleVector

variable {α : Type}

/-! ## Resize and Reserve on every vector -/

/-- What `Resize(k)` does to a vector that satisfies the representation
invariant. -/
theorem Resize_spec [Inhabited α] (junk : Nat → α) (v : SimpleVector α) (k : Nat)
    (hwf : v.WF) :
    ∃ w : SimpleVector α, Resize junk v k = some w ∧ w.WF ∧ w.size_ = k ∧
      (∀ i, i < min v.size_ k → w.array_[i]? = v.array_[i]?) ∧
      (∀ i, v.size_ ≤ i → i < k → w.array_[i]? = some default) ∧
      w.capacity_ = (if k > v.capacity_ then k else v.capacity_) := by
  obtain ⟨h1, h2⟩ := hwf
  by_cases hn : k ≤ v.size_
  · refine ⟨_, Resize_shrink junk v k hn, ⟨?_, h2⟩, rfl, fun i _ => rfl, ?_, ?_⟩
    · show k ≤ v.capacity_
      omega
    · intro i hi1 hi2
      omega
    · rw [if_neg (by omega)]
  · by_cases hc : k ≤ v.capacity_
    · refine ⟨_, Resize_inplace junk v k (by omega) hc h2, ⟨hc, ?_⟩, rfl, ?_, ?_, ?_⟩
      · show v.capacity_ ≤ (fillUp default (k - v.size_) v.array_ v.size_).length
        rw [length_fillUp]; exact h2
      · intro i hi
        show (fillUp default (k - v.size_) v.array_ v.size_)[i]? = v.array_[i]?
        rw [getElem?_fillUp _ _ _ _ _ (by omega), if_neg (by omega)]
      · intro i hi1 hi2
        show (fillUp default (k - v.size_) v.array_ v.size_)[i]? = some default
        rw [getElem?_fillUp _ _ _ _ _ (by omega), if_pos (by omega)]
      · rw [if_neg (by omega)]
    · have hlen : (moveAcross v.size_ v.array_ 0 (ArrayPtr.alloc junk k) 0).length = k := by
        rw [length_moveAcross, length_alloc]
      refine ⟨_, Resize_grow junk v k (by omega) (by omega) (by omega), ⟨Nat.le_refl _, ?_⟩,
        rfl, ?_, ?_, ?_⟩
      · show k ≤ (fillUp default (k - v.size_)
          (moveAcross v.size_ v.array_ 0 (ArrayPtr.alloc junk k) 0) v.size_).length
        rw [length_fillUp, hlen]
      · intro i hi
        show (fillUp default (k - v.size_)
          (moveAcross v.size_ v.array_ 0 (ArrayPtr.alloc junk k) 0) v.size_)[i]? = v.array_[i]?
        rw [getElem?_fillUp _ _ _ _ _ (by omega), if_neg (by omega),
          getElem?_moveAcross _ _ _ _ _ _ (by omega) (by rw [length_alloc]; omega),
          if_pos (by omega)]
        simp
      · intro i hi1 hi2
        show (fillUp default (k - v.size_)
          (moveAcross v.size_ v.array_ 0 (ArrayPtr.alloc junk k) 0) v.size_)[i]? = some default
        rw [getElem?_fillUp _ _ _ _ _ (by omega), if_pos (by omega)]
      · show k = if k > v.capacity_ then k else v.capacity_
        rw [if_pos (by omega)]

/-- What `Reserve(k)` does to a vector that satisfies the representation
invariant. -/
theorem Reserve_spec (junk : Nat → α) (v : SimpleVector α) (k : Nat) (hwf : v.WF) :
    ∃ w : SimpleVector α, Reserve junk v k = some w ∧ w.WF ∧
      w.capacity_ = max v.capacity_ k ∧ w.size_ = v.size_ ∧
      (∀ i, i < v.size_ → w.array_[i]? = v.array_[i]?) ∧
      (k ≤ v.capacity_ → w = v) := by
  obtain ⟨h1, h2⟩ := hwf
  by_cases hc : k ≤ v.capacity_
  · exact ⟨v, Reserve_noop junk v k hc, ⟨h1, h2⟩, by omega, rfl, fun i _ => rfl, fun _ => rfl⟩
  · refine ⟨_, Reserve_grow junk v k (by omega) (by omega) (by omega), ⟨?_, ?_⟩, ?_, rfl,
      ?_, ?_⟩
    · show v.size_ ≤ k
      omega
    · show k ≤ (moveAcross v.size_ v.array_ 0 (ArrayPtr.alloc junk k) 0).length
      rw [length_moveAcross, length_alloc]
    · show k = max v.capacity_ k
      omega
    · intro i hi
      show (moveAcross v.size_ v.array_ 0 (ArrayPtr.alloc junk k) 0)[i]? = v.array_[i]?
      rw [getElem?_moveAcross _ _ _ _ _ _ (by omega) (by rw [length_alloc]; omega),
        if_pos (by omega)]
      simp
    · intro h
      omega

end SimpleVector
end SimpleVec

namespace SimpleVec
namespace SimpleVector

variable {α : Type}

/-! ## PushBack sequences from an empty and from a reserved vector -/

/-- Up to `2^31` calls of `PushBack` on an empty vector: size, elements in
insertion order, and a capacity that is `0` for no call and otherwise the
smallest power of two that is at least the number of calls. -/
theorem pushAll_empty_of_fits [Inhabited α] (junk : Nat → α) (xs : List α)
    (hi : xs.length ≤ 2147483648) :
    ∃ w : SimpleVector α, pushAll junk empty xs = some w ∧
      w.size_ = xs.length ∧ w.toList = xs ∧
      (xs.length = 0 → w.capacity_ = 0) ∧
      (0 < xs.length → ∃ k : Nat, w.capacity_ = 2 ^ k ∧ xs.length ≤ 2 ^ k ∧
        ∀ j : Nat, xs.length ≤ 2 ^ j → 2 ^ k ≤ 2 ^ j) := by
  obtain ⟨w, hw, _, hd, hs, hl⟩ := pushAll_of_fits junk xs empty WF_empty Doubling_empty
    (by show 0 + xs.length ≤ 2147483648; omega)
  have hs2 : w.size_ = xs.length := by rw [hs]; show 0 + xs.length = xs.length; omega
  refine ⟨w, hw, hs2, by rw [hl]; rfl, ?_, ?_⟩
  · intro h0
    rcases hd with ⟨_, h2⟩ | ⟨k, _, _, h3⟩
    · exact h2
    · omega
  · intro hpos
    rcases hd with ⟨h1, _⟩ | ⟨k, h1, h2, h3⟩
    · omega
    · refine ⟨k, h1, by omega, ?_⟩
      intro j hj
      have hlt : 2 ^ k < 2 ^ (j + 1) := by rw [pow_succ]; omega
      have hkj : k < j + 1 := (Nat.pow_lt_pow_iff_right (by decide)).mp hlt
      exact Nat.pow_le_pow_right (by decide) (by omega)

/-- After `Reserve(k)` on an empty vector, up to `min(k, 2^31)` calls of
`PushBack` leave the capacity at `k`. -/
theorem reserve_pushAll_of_fits [Inhabited α] (junk : Nat → α) (k : Nat) (xs : List α)
    (hk : 1 ≤ k) (hx : xs.length ≤ k) (hi : xs.length ≤ 2147483648) :
    ∃ v w : SimpleVector α, ofReserve junk k = some v ∧ v.size_ = 0 ∧ v.capacity_ = k ∧
      pushAll junk v xs = some w ∧ w.capacity_ = k ∧ w.size_ = xs.length ∧ w.toList = xs := by
  have hwf : (SimpleVector.mk (ArrayPtr.alloc junk k) 0 k).WF :=
    ⟨Nat.zero_le _, by show k ≤ (ArrayPtr.alloc junk k).length; rw [length_alloc]⟩
  obtain ⟨w, hw, _, hc, hs, hl⟩ := pushAll_spare junk xs _ hwf
    (by show 0 + xs.length ≤ k; omega) (by show 0 + xs.length ≤ 2147483648; omega)
  refine ⟨_, w, ofReserve_eq junk k hk, rfl, rfl, hw, hc, ?_, ?_⟩
  · rw [hs]; show 0 + xs.length = xs.length; omega
  · rw [hl]; simp [toList]

/-- After `Reserve(k)` with `k > 2^31` on an empty vector, the call of
`PushBack` made at size `2^31` has no defined result. -/
theorem reserve_pushAll_beyond_int [Inhabited α] (junk : Nat → α) (k : Nat) (xs : List α)
    (hx : xs.length ≤ k) (h : 2147483648 < xs.length) :
    (ofReserve junk k).bind (fun v => pushAll junk v xs) = none := by
  have hlen : (xs.take 2147483648).length = 2147483648 := by
    rw [List.length_take]; omega
  obtain ⟨v, w, hv, _, _, hw, _, hs, _⟩ := reserve_pushAll_of_fits junk k (xs.take 2147483648)
    (by omega) (by omega) (by omega)
  have hd : xs.drop 2147483648 ≠ [] := by
    intro e
    have := congrArg List.length e
    rw [List.length_drop] at this
    simp only [List.length_nil] at this
    omega
  obtain ⟨y, ys, hy⟩ := List.exists_cons_of_ne_nil hd
  rw [hv, Option.some_bind, ← List.take_append_drop 2147483648 xs, pushAll_append, hw, hy]
  simp only [Option.some_bind, pushAll]
  rw [PushBack_beyond_int junk w y (by omega) (by omega)]
  rfl

/-- More than `2^31` calls of `PushBack` on an empty vector: the call made at
size `2^31` has no defined result. -/
theorem pushAll_beyond_int [Inhabited α] (junk : Nat → α) (xs : List α)
    (h : 2147483648 < xs.length) : pushAll junk (empty : SimpleVector α) xs = none := by
  have hlen : (xs.take 2147483648).length = 2147483648 := by
    rw [List.length_take]; omega
  obtain ⟨w, hw, _, _, hs, _⟩ := pushAll_of_fits junk (xs.take 2147483648)
    empty WF_empty Doubling_empty (by rw [hlen]; show 0 + 2147483648 ≤ 2147483648; omega)
  have hs2 : w.size_ = 2147483648 := by
    rw [hs, hlen]; show 0 + 2147483648 = 2147483648; omega
  have hd : xs.drop 2147483648 ≠ [] := by
    intro e
    have := congrArg List.length e
    rw [List.length_drop] at this
    simp only [List.length_nil] at this
    omega
  obtain ⟨y, ys, hy⟩ := List.exists_cons_of_ne_nil hd
  rw [← List.take_append_drop 2147483648 xs, pushAll_append, hw, hy]
  simp only [Option.some_bind, pushAll]
  rw [PushBack_beyond_int junk w y (by omega) (by omega)]
  rfl

end SimpleVector
end SimpleVec

namespace SimpleVec
namespace SimpleVector

variable {α : Type}

/-! ## The claims -/

/-- C1: `Insert` does not serve every position `0 <= p <= n`.  On a full vector
of `2^31` elements the position of `end()` is stored in `int pos_` as `-2^31`;
`Insert(end(), 7)` then shifts a range that starts before the buffer and has no
defined result, where the claim promises the old sequence followed by `7`, size
`2^31 + 1` and the returned position `2^31`. -/
theorem C1_Insert_position_beyond_int :
    (SimpleVector.mk (List.replicate 2147483648 0) 2147483648 2147483648).WF ∧
    toInt (2147483648 - 0) = -2147483648 ∧
    Insert (fun _ => 0) (SimpleVector.mk (List.replicate 2147483648 0) 2147483648 2147483648)
      2147483648 7 = none := by
  refine ⟨?_, ?_, ?_⟩
  · simp only [WF, List.length_replicate, le_refl, and_self]
  · unfold toInt; norm_num
  · exact Insert_neg _ _ _ _ (by unfold toInt; norm_num)

/-- C2: `Insert` on a full vector does not always end with the capacity
`max(1, 2 * n)`.  On a full vector of `2^31` elements `Insert(end(), 7)` has no
defined result (the position does not fit `int pos_`), so no vector of capacity
`2^32` comes back. -/
theorem C2_Insert_capacity_beyond_int :
    (SimpleVector.mk (List.replicate 2147483648 0) 2147483648 2147483648).size_ =
      (SimpleVector.mk (List.replicate 2147483648 0) 2147483648 2147483648).capacity_ ∧
    (Insert (fun _ => 0) (SimpleVector.mk (List.replicate 2147483648 0) 2147483648 2147483648)
      2147483648 7).map (fun r => r.1.capacity_) = none := by
  refine ⟨rfl, ?_⟩
  rw [Insert_neg _ _ _ _ (by unfold toInt; norm_num)]
  rfl

/-- C3: `2^31 + 1` calls of `PushBack` on an empty vector do not yield a vector
of size `2^31 + 1`.  The first `2^31` calls succeed; the next one runs
`Insert(end(), item)` with the position `2^31`, which does not fit `int pos_`,
and has no defined result. -/
theorem C3_PushBack_beyond_int :
    pushAll (fun _ => 0) (empty : SimpleVector Nat) (List.replicate 2147483649 0) = none :=
  pushAll_beyond_int _ _ (by rw [List.length_replicate]; omega)

/-- C4: `Erase` does not serve every position `0 <= p < n`.  On a vector of
`2^31 + 1` elements the position of the last element is stored in `int pos_`
as `-2^31`; `Erase(begin() + 2^31)` then moves into a range that starts before
the buffer and has no defined result, where the claim promises the sequence
without its last element. -/
theorem C4_Erase_position_beyond_int :
    (SimpleVector.mk (List.replicate 2147483649 0) 2147483649 2147483649).WF ∧
    Erase (SimpleVector.mk (List.replicate 2147483649 0) 2147483649 2147483649)
      2147483648 = none := by
  refine ⟨?_, ?_⟩
  · simp only [WF, List.length_replicate, le_refl, and_self]
  · exact Erase_neg _ _ (by unfold toInt; norm_num)

/-- C5: `Insert` followed by `Erase` at the same position does not restore
every vector.  On a full vector of `2^31` elements `Insert(end(), 7)` has no
defined result (the position does not fit `int pos_`), so the pair of calls
does not give back the old sequence. -/
theorem C5_Insert_Erase_beyond_int :
    (Insert (fun _ => 0) (SimpleVector.mk (List.replicate 2147483648 0) 2147483648 2147483648)
      2147483648 7).bind (fun r => Erase r.1 2147483648) = none := by
  rw [Insert_neg _ _ _ _ (by unfold toInt; norm_num)]
  rfl

/-- C6: `At(i)` ends with out-of-range exactly when `i >= size`, in particular
for `i = size` and `i = size + 1`; for `i < size` it returns the element that
the unchecked `operator[](i)` returns; the vector is the same after the call in
both cases. -/
theorem C6_At_checked_access (v : SimpleVector α) (i : Nat) (hwf : v.WF) :
    ((v.At i).2 = Access.out_of_range ↔ i ≥ v.size_) ∧
    (v.At v.size_).2 = Access.out_of_range ∧
    (v.At (v.size_ + 1)).2 = Access.out_of_range ∧
    (i < v.size_ → ∃ x : α, (v.At i).2 = Access.value x ∧ v.index i = Access.value x) ∧
    (v.At i).1 = v := by
  obtain ⟨h1, h2⟩ := hwf
  refine ⟨?_, ?_, ?_, ?_, ?_⟩
  · by_cases h : i ≥ v.size_
    · refine ⟨fun _ => h, fun _ => ?_⟩
      simp only [At, GetSize, if_pos h]
    · have hlt : i < v.array_.length := by omega
      refine ⟨fun e => ?_, fun h3 => absurd h3 h⟩
      simp only [At, GetSize, if_neg h, index, List.getElem?_eq_getElem hlt] at e
      cases e
  · simp only [At, GetSize, ge_iff_le, le_refl, if_true]
  · simp only [At, GetSize, ge_iff_le, Nat.le_add_right, if_true]
  · intro h
    have hlt : i < v.array_.length := by omega
    have hn : ¬ i ≥ v.size_ := by omega
    refine ⟨v.array_.get ⟨i, hlt⟩, ?_, ?_⟩
    · simp only [At, GetSize, if_neg hn, index, List.getElem?_eq_getElem hlt, List.get_eq_getElem]
    · simp only [index, List.getElem?_eq_getElem hlt, List.get_eq_getElem]
  · unfold At
    split <;> rfl

/-- C6 at index 1 of the vector `[1, 2, 3]` of capacity 4. -/
theorem C6_At_checked_access_witness :
    (SimpleVector.mk [1, 2, 3, 0] 3 4).WF ∧
    (((SimpleVector.mk [1, 2, 3, 0] 3 4).At 1).2 = Access.out_of_range ↔
      1 ≥ (SimpleVector.mk [1, 2, 3, 0] 3 4).size_) ∧
    ((SimpleVector.mk [1, 2, 3, 0] 3 4).At (SimpleVector.mk [1, 2, 3, 0] 3 4).size_).2 =
      Access.out_of_range ∧
    ((SimpleVector.mk [1, 2, 3, 0] 3 4).At ((SimpleVector.mk [1, 2, 3, 0] 3 4).size_ + 1)).2 =
      Access.out_of_range ∧
    (1 < (SimpleVector.mk [1, 2, 3, 0] 3 4).size_ →
      ∃ x : Nat, ((SimpleVector.mk [1, 2, 3, 0] 3 4).At 1).2 = Access.value x ∧
        (SimpleVector.mk [1, 2, 3, 0] 3 4).index 1 = Access.value x) ∧
    ((SimpleVector.mk [1, 2, 3, 0] 3 4).At 1).1 = SimpleVector.mk [1, 2, 3, 0] 3 4 :=
  ⟨by decide, C6_At_checked_access (SimpleVector.mk [1, 2, 3, 0] 3 4) 1 (by decide)⟩

/-- C7: `Resize(k)` on a vector of size `n` and capacity `c` with `n <= c`
returns with size `k`, the elements below `min(n, k)` unchanged, the elements
at the indices `[n, k)` equal to `Type()`, and the capacity `k` when `k > c`
and `c` otherwise. -/
theorem C7_Resize_postcondition [Inhabited α] (junk : Nat → α) (v : SimpleVector α) (k : Nat)
    (hwf : v.WF) :
    ∃ w : SimpleVector α, Resize junk v k = some w ∧ w.size_ = k ∧
      (∀ i, i < min v.size_ k → w.array_[i]? = v.array_[i]?) ∧
      (∀ i, v.size_ ≤ i → i < k → w.array_[i]? = some default) ∧
      w.capacity_ = (if k > v.capacity_ then k else v.capacity_) := by
  obtain ⟨w, hw, _, hs, he, hd, hc⟩ := Resize_spec junk v k hwf
  exact ⟨w, hw, hs, he, hd, hc⟩

/-- C7 for `Resize(6)` on the vector `[1, 2, 3]` of capacity 4. -/
theorem C7_Resize_postcondition_witness :
    (SimpleVector.mk [1, 2, 3, 9] 3 4).WF ∧
    ∃ w : SimpleVector Nat, Resize (fun _ => 7) (SimpleVector.mk [1, 2, 3, 9] 3 4) 6 = some w ∧
      w.size_ = 6 ∧
      (∀ i, i < min (SimpleVector.mk [1, 2, 3, 9] 3 4).size_ 6 →
        w.array_[i]? = (SimpleVector.mk [1, 2, 3, 9] 3 4).array_[i]?) ∧
      (∀ i, (SimpleVector.mk [1, 2, 3, 9] 3 4).size_ ≤ i → i < 6 → w.array_[i]? = some default) ∧
      w.capacity_ = (if 6 > (SimpleVector.mk [1, 2, 3, 9] 3 4).capacity_ then 6
        else (SimpleVector.mk [1, 2, 3, 9] 3 4).capacity_) :=
  ⟨by decide, C7_Resize_postcondition (fun _ => 7) (SimpleVector.mk [1, 2, 3, 9] 3 4) 6
    (by decide)⟩

/-- C8: for `m <= n` the calls `Resize(n)`, `Resize(m)`, `Resize(n)` all return
and end with size `n`, the elements below `m` as they were after the first
`Resize(n)`, and every element at an index in `[m, n)` equal to `Type()`. -/
theorem C8_Resize_shrink_regrow [Inhabited α] (junk : Nat → α) (v : SimpleVector α) (m n : Nat)
    (hwf : v.WF) (hmn : m ≤ n) :
    ∃ w1 w2 w3 : SimpleVector α, Resize junk v n = some w1 ∧ Resize junk w1 m = some w2 ∧
      Resize junk w2 n = some w3 ∧ w3.size_ = n ∧
      (∀ i, i < m → w3.array_[i]? = w1.array_[i]?) ∧
      (∀ i, m ≤ i → i < n → w3.array_[i]? = some default) := by
  obtain ⟨w1, hw1, hwf1, hs1, _, _, _⟩ := Resize_spec junk v n hwf
  obtain ⟨w2, hw2, hwf2, hs2, he2, _, _⟩ := Resize_spec junk w1 m hwf1
  obtain ⟨w3, hw3, _, hs3, he3, hd3, _⟩ := Resize_spec junk w2 n hwf2
  refine ⟨w1, w2, w3, hw1, hw2, hw3, hs3, ?_, ?_⟩
  · intro i hi
    rw [he3 i (by omega), he2 i (by omega)]
  · intro i hi1 hi2
    exact hd3 i (by omega) hi2

/-- C8 for `Resize(5)`, `Resize(2)`, `Resize(5)` on the vector `[1, 2, 3]` of
capacity 4. -/
theorem C8_Resize_shrink_regrow_witness :
    (SimpleVector.mk [1, 2, 3, 9] 3 4).WF ∧ 2 ≤ 5 ∧
    ∃ w1 w2 w3 : SimpleVector Nat,
      Resize (fun _ => 7) (SimpleVector.mk [1, 2, 3, 9] 3 4) 5 = some w1 ∧
      Resize (fun _ => 7) w1 2 = some w2 ∧
      Resize (fun _ => 7) w2 5 = some w3 ∧ w3.size_ = 5 ∧
      (∀ i, i < 2 → w3.array_[i]? = w1.array_[i]?) ∧
      (∀ i, 2 ≤ i → i < 5 → w3.array_[i]? = some default) :=
  ⟨by decide, by decide, C8_Resize_shrink_regrow (fun _ => 7) (SimpleVector.mk [1, 2, 3, 9] 3 4)
    2 5 (by decide) (by decide)⟩

/-- C9: `Reserve(k)` on a vector of capacity `c` returns with the capacity
`max(c, k)`, the size and every live element unchanged; for `k <= c` the whole
vector is unchanged. -/
theorem C9_Reserve_postcondition (junk : Nat → α) (v : SimpleVector α) (k : Nat)
    (hwf : v.WF) :
    ∃ w : SimpleVector α, Reserve junk v k = some w ∧
      w.capacity_ = max v.capacity_ k ∧ w.size_ = v.size_ ∧
      (∀ i, i < v.size_ → w.array_[i]? = v.array_[i]?) ∧
      (k ≤ v.capacity_ → w = v) := by
  obtain ⟨w, hw, _, hc, hs, he, hn⟩ := Reserve_spec junk v k hwf
  exact ⟨w, hw, hc, hs, he, hn⟩

/-- C9 for `Reserve(6)` on the vector `[1, 2, 3]` of capacity 4. -/
theorem C9_Reserve_postcondition_witness :
    (SimpleVector.mk [1, 2, 3, 9] 3 4).WF ∧
    ∃ w : SimpleVector Nat, Reserve (fun _ => 7) (SimpleVector.mk [1, 2, 3, 9] 3 4) 6 = some w ∧
      w.capacity_ = max (SimpleVector.mk [1, 2, 3, 9] 3 4).capacity_ 6 ∧
      w.size_ = (SimpleVector.mk [1, 2, 3, 9] 3 4).size_ ∧
      (∀ i, i < (SimpleVector.mk [1, 2, 3, 9] 3 4).size_ →
        w.array_[i]? = (SimpleVector.mk [1, 2, 3, 9] 3 4).array_[i]?) ∧
      (6 ≤ (SimpleVector.mk [1, 2, 3, 9] 3 4).capacity_ → w = SimpleVector.mk [1, 2, 3, 9] 3 4) :=
  ⟨by decide, C9_Reserve_postcondition (fun _ => 7) (SimpleVector.mk [1, 2, 3, 9] 3 4) 6
    (by decide)⟩

/-- C10: after `Reserve(k)` on an empty vector not every one of the next `k`
calls of `PushBack` leaves size `j` and capacity `k`.  For `k = 2^31 + 1` the
first `2^31` calls do; the last one runs `Insert(end(), item)` with the
position `2^31`, which does not fit `int pos_`, and has no defined result. -/
theorem C10_Reserve_PushBack_beyond_int :
    (ofReserve (fun _ => 0) 2147483649).bind
      (fun v => pushAll (fun _ => 0) v (List.replicate 2147483649 (0 : Nat))) = none :=
  reserve_pushAll_beyond_int _ _ _ (by rw [List.length_replicate])
    (by rw [List.length_replicate]; omega)

end SimpleVector
end SimpleVec

namespace SimpleVec

/-! ## The comparison loops -/

/-- The loop of `std::equal` over two ranges inside their buffers compares the
two slices with the element-wise `==` of lists. -/
theorem equalLoop_eq_beq {α : Type} [BEq α] (k : Nat) (a : List α) (f1 : Nat) (b : List α)
    (f2 : Nat) (ha : f1 + k ≤ a.length) (hb : f2 + k ≤ b.length) :
    equalLoop k a f1 b f2 = some ((a.drop f1).take k == (b.drop f2).take k) := by
  induction k generalizing f1 f2 with
  | zero => simp [equalLoop]
  | succ k ih =>
    have h1 : f1 < a.length := by omega
    have h2 : f2 < b.length := by omega
    rw [equalLoop, List.getElem?_eq_getElem h1, List.getElem?_eq_getElem h2]
    simp only []
    rw [List.drop_eq_getElem_cons h1, List.drop_eq_getElem_cons h2, List.take_succ_cons,
      List.take_succ_cons, List.cons_beq_cons, ih (f1 + 1) (f2 + 1) (by omega) (by omega)]
    cases a[f1] == b[f2] <;> simp

/-- Element-wise `==` of two lists, slot by slot. -/
theorem list_beq_iff {α : Type} [BEq α] (xs ys : List α) :
    (xs == ys) = true ↔ xs.length = ys.length ∧
      ∀ i, i < xs.length → ∃ x y, xs[i]? = some x ∧ ys[i]? = some y ∧ (x == y) = true := by
  induction xs generalizing ys with
  | nil =>
    cases ys with
    | nil => simp
    | cons y ys => simp [BEq.beq, List.beq]
  | cons x xs ih =>
    cases ys with
    | nil => simp [BEq.beq, List.beq]
    | cons y ys =>
      rw [List.cons_beq_cons, Bool.and_eq_true, ih ys]
      constructor
      · rintro ⟨hxy, hl, he⟩
        refine ⟨by simp [hl], ?_⟩
        intro i hi
        cases i with
        | zero => exact ⟨x, y, by simp, by simp, hxy⟩
        | succ i =>
          obtain ⟨u, w, hu, hw, huw⟩ := he i (by simpa using hi)
          exact ⟨u, w, by simpa using hu, by simpa using hw, huw⟩
      · rintro ⟨hl, he⟩
        refine ⟨?_, by simpa using hl, ?_⟩
        · obtain ⟨u, w, hu, hw, huw⟩ := he 0 (by simp)
          simp at hu hw
          subst hu; subst hw
          exact huw
        · intro i hi
          obtain ⟨u, w, hu, hw, huw⟩ := he (i + 1) (by simpa using hi)
          exact ⟨u, w, by simpa using hu, by simpa using hw, huw⟩

/-- How a lexicographic comparison of two non-empty lists was decided. -/
theorem Lex_cons_inv {α : Type} {r : α → α → Prop} {x y : α} {xs ys : List α}
    (h : List.Lex r (x :: xs) (y :: ys)) : r x y ∨ (x = y ∧ List.Lex r xs ys) := by
  cases h with
  | cons h => exact Or.inr ⟨rfl, h⟩
  | rel h => exact Or.inl h

/-- The loop of `std::lexicographical_compare` over two ranges inside their
buffers decides the lexicographic order of the two slices, for a linearly
ordered element type. -/
theorem lexLoop_iff_Lex {α : Type} [LinearOrder α] (k : Nat) (a : List α) (f1 : Nat)
    (b : List α) (f2 l2 : Nat) (ha : f1 + k ≤ a.length) (h2 : f2 ≤ l2) (hb : l2 ≤ b.length) :
    ∃ r : Bool, lexLoop k a f1 b f2 l2 = some r ∧
      (r = true ↔ List.Lex (fun x y : α => x < y) ((a.drop f1).take k)
        ((b.drop f2).take (l2 - f2))) := by
  induction k generalizing f1 f2 with
  | zero =>
    refine ⟨decide (f2 ≠ l2), rfl, ?_⟩
    rw [List.take_zero, decide_eq_true_iff]
    constructor
    · intro hne
      have hlt : f2 < b.length := by omega
      have e : l2 - f2 = (l2 - (f2 + 1)) + 1 := by omega
      rw [List.drop_eq_getElem_cons hlt, e, List.take_succ_cons]
      exact List.Lex.nil
    · intro hlex hEq
      subst hEq
      rw [Nat.sub_self, List.take_zero] at hlex
      exact List.Lex.not_nil_right _ _ hlex
  | succ k ih =>
    have h1 : f1 < a.length := by omega
    rw [lexLoop, List.drop_eq_getElem_cons h1, List.take_succ_cons]
    by_cases he : f2 = l2
    · subst he
      refine ⟨false, by simp, ?_⟩
      rw [Nat.sub_self, List.take_zero]
      simp [List.Lex.not_nil_right]
    · have hlt : f2 < b.length := by omega
      have e : l2 - f2 = (l2 - (f2 + 1)) + 1 := by omega
      rw [if_neg he, List.getElem?_eq_getElem h1, List.getElem?_eq_getElem hlt,
        List.drop_eq_getElem_cons hlt, e, List.take_succ_cons]
      simp only []
      by_cases hxy : a[f1] < b[f2]
      · exact ⟨true, by rw [if_pos hxy], by simp [List.Lex.rel hxy]⟩
      · by_cases hyx : b[f2] < a[f1]
        · refine ⟨false, by rw [if_neg hxy, if_pos hyx], ?_⟩
          simp only [Bool.false_eq_true, false_iff]
          intro hlex
          rcases Lex_cons_inv hlex with h | ⟨h, _⟩
          · exact hxy h
          · rw [h] at hyx
            exact lt_irrefl _ hyx
        · have hEq : a[f1] = b[f2] := le_antisymm (not_lt.mp hyx) (not_lt.mp hxy)
          obtain ⟨r, hr, hiff⟩ := ih (f1 + 1) (f2 + 1) (by omega) (by omega)
          refine ⟨r, by rw [if_neg hxy, if_neg hyx, hr], ?_⟩
          rw [hiff, hEq, List.Lex.cons_iff]

/-- Lexicographic order of two lists over a linear order: a proper prefix, or
a smaller element at the first index where the lists differ. -/
theorem Lex_iff_prefix_or_first {α : Type} [LinearOrder α] (xs ys : List α) :
    List.Lex (fun x y : α => x < y) xs ys ↔
      (xs <+: ys ∧ xs.length < ys.length) ∨
      ∃ (i : Nat) (x y : α), xs[i]? = some x ∧ ys[i]? = some y ∧
        xs.take i = ys.take i ∧ x < y := by
  induction xs generalizing ys with
  | nil =>
    cases ys with
    | nil => simp [List.Lex.not_nil_right]
    | cons y ys => simp [List.Lex.nil]
  | cons x xs ih =>
    cases ys with
    | nil => simp [List.Lex.not_nil_right]
    | cons y ys =>
      constructor
      · intro h
        cases h with
        | cons h =>
          rcases (ih ys).mp h with ⟨hp, hl⟩ | ⟨i, u, w, hu, hw, ht, huw⟩
          · exact Or.inl ⟨(List.prefix_cons_inj x).mpr hp, by simpa using hl⟩
          · exact Or.inr ⟨i + 1, u, w, by simpa using hu, by simpa using hw,
              by simp [ht], huw⟩
        | rel h => exact Or.inr ⟨0, x, y, by simp, by simp, by simp, h⟩
      · rintro (⟨hp, hl⟩ | ⟨i, u, w, hu, hw, ht, huw⟩)
        · obtain ⟨he, hp2⟩ := List.cons_prefix_cons.mp hp
          subst he
          exact List.Lex.cons ((ih ys).mpr (Or.inl ⟨hp2, by simpa using hl⟩))
        · cases i with
          | zero =>
            simp at hu hw
            subst hu; subst hw
            exact List.Lex.rel huw
          | succ i =>
            simp only [List.take_succ_cons, List.cons.injEq] at ht
            obtain ⟨he, ht2⟩ := ht
            subst he
            exact List.Lex.cons ((ih ys).mpr (Or.inr ⟨i, u, w, by simpa using hu,
              by simpa using hw, ht2, huw⟩))

end SimpleVec

namespace SimpleVec
namespace SimpleVector

variable {α : Type}

/-! ## The comparison operators on the live sequences -/

theorem getElem?_toList (v : SimpleVector α) (i : Nat) (hi : i < v.size_) :
    v.toList[i]? = v.array_[i]? := by
  simp only [toList, List.getElem?_take, if_pos hi]

/-- Operator `==` compares the live sequences with the element-wise `==`. -/
theorem op_eq_eq_beq [BEq α] (a b : SimpleVector α)
    (ha : a.size_ ≤ a.array_.length) (hb : b.size_ ≤ b.array_.length) :
    op_eq a b = some (a.toList == b.toList) := by
  by_cases hs : a.size_ = b.size_
  · have hv : validRange a.array_.length (0 : Int) (a.size_ : Int) ∧ (0 : Int) ≤ 0 := by
      unfold validRange; omega
    have hn : ((a.size_ : Int) - 0).toNat = a.size_ := by omega
    have hne : ¬ a.size_ ≠ b.size_ := fun h => h hs
    simp only [op_eq, GetSize, if_neg hne, std_equal, begin, end_, if_pos hv, hn, Int.toNat_zero]
    rw [equalLoop_eq_beq a.size_ a.array_ 0 b.array_ 0 (by omega) (by omega)]
    simp only [List.drop_zero, toList, hs]
  · have hf : (a.toList == b.toList) = false := by
      rw [Bool.eq_false_iff]
      intro h
      have hl := ((list_beq_iff _ _).mp h).1
      rw [length_toList a ha, length_toList b hb] at hl
      exact hs hl
    simp only [op_eq, GetSize, ne_eq, hs, not_false_eq_true, if_true, hf]

/-- Operator `<` decides the lexicographic order of the live sequences, for a
linearly ordered element type. -/
theorem op_lt_iff_Lex [LinearOrder α] (a b : SimpleVector α)
    (ha : a.size_ ≤ a.array_.length) (hb : b.size_ ≤ b.array_.length) :
    ∃ r : Bool, op_lt a b = some r ∧
      (r = true ↔ List.Lex (fun x y : α => x < y) a.toList b.toList) := by
  have hv : validRange a.array_.length (0 : Int) (a.size_ : Int) ∧
      validRange b.array_.length (0 : Int) (b.size_ : Int) := by
    unfold validRange; omega
  have hn : ((a.size_ : Int) - 0).toNat = a.size_ := by omega
  obtain ⟨r, hr, hiff⟩ := lexLoop_iff_Lex a.size_ a.array_ 0 b.array_ 0 b.size_ (by omega)
    (Nat.zero_le _) hb
  refine ⟨r, ?_, ?_⟩
  · simp only [op_lt, std_lexicographical_compare, begin, end_, GetSize, if_pos hv, hn,
      Int.toNat_zero, Int.toNat_ofNat, hr]
  · simpa only [List.drop_zero, Nat.sub_zero, toList] using hiff

end SimpleVector
end SimpleVec

namespace SimpleVec

/-! ## Constructors and assignment -/

theorem std_copy_into_eq {α : Type} (src dst : List α) (f l d : Nat)
    (h1 : f ≤ l) (h2 : l ≤ src.length) (h3 : d + (l - f) ≤ dst.length) :
    std_copy_into src (f : Int) (l : Int) dst (d : Int) = some (moveAcross (l - f) src f dst d) := by
  have hv : validRange src.length (f : Int) (l : Int) ∧
      validRange dst.length (d : Int) ((d : Int) + ((l : Int) - (f : Int))) := by
    unfold validRange; omega
  have hn : ((l : Int) - (f : Int)).toNat = l - f := by omega
  simp only [std_copy_into, if_pos hv, hn, Int.toNat_ofNat]

theorem std_fill_eq {α : Type} (buf : List α) (f l : Nat) (x : α)
    (h1 : f ≤ l) (h2 : l ≤ buf.length) :
    std_fill buf (f : Int) (l : Int) x = some (fillUp x (l - f) buf f) := by
  have hv : validRange buf.length (f : Int) (l : Int) := by
    unfold validRange; omega
  have hn : ((l : Int) - (f : Int)).toNat = l - f := by omega
  simp only [std_fill, if_pos hv, hn, Int.toNat_ofNat]

/-- The first `n` slots after `n` elements were moved to the start of another
buffer. -/
theorem take_moveAcross {α : Type} (n : Nat) (src dst : List α)
    (hs : n ≤ src.length) (hd : n ≤ dst.length) :
    (moveAcross n src 0 dst 0).take n = src.take n := by
  apply List.ext_getElem?
  intro i
  rw [List.getElem?_take, List.getElem?_take]
  by_cases h : i < n
  · rw [if_pos h, if_pos h, getElem?_moveAcross n src 0 dst 0 i (by omega) (by omega),
      if_pos (by omega)]
    simp
  · rw [if_neg h, if_neg h]

namespace SimpleVector

variable {α : Type}

theorem ofSize_eq [Inhabited α] (junk : Nat → α) (n : Nat) :
    ofSize junk n = some
      { array_ := fillUp default n (ArrayPtr.alloc junk n) 0, size_ := n, capacity_ := n } := by
  have hg := std_generate_eq (ArrayPtr.alloc junk n) 0 n (Nat.zero_le _)
    (by rw [length_alloc])
  simp only [Nat.cast_zero, Nat.sub_zero] at hg
  simp only [ofSize, begin, end_, GetSize, hg, Option.bind_eq_bind, Option.some_bind]

theorem ofSizeValue_eq (junk : Nat → α) (n : Nat) (x : α) :
    ofSizeValue junk n x = some
      { array_ := fillUp x n (ArrayPtr.alloc junk n) 0, size_ := n, capacity_ := n } := by
  have hg := std_fill_eq (ArrayPtr.alloc junk n) 0 n x (Nat.zero_le _)
    (by rw [length_alloc])
  simp only [Nat.cast_zero, Nat.sub_zero] at hg
  simp only [ofSizeValue, begin, end_, GetSize, hg, Option.bind_eq_bind, Option.some_bind]

theorem ofInit_eq (junk : Nat → α) (init : List α) :
    ofInit junk init = some
      { array_ := moveAcross init.length init 0 (ArrayPtr.alloc junk init.length) 0,
        size_ := init.length, capacity_ := init.length } := by
  have hm := std_move_into_eq init (ArrayPtr.alloc junk init.length) 0 init.length 0
    (Nat.zero_le _) (Nat.le_refl _) (by rw [length_alloc]; omega)
  simp only [Nat.cast_zero, Nat.sub_zero] at hm
  simp only [ofInit, begin, hm, Option.bind_eq_bind, Option.some_bind]

/-- The copy constructor on a vector whose live elements lie in its buffer. -/
theorem copyConstruct_eq [Inhabited α] (junk : Nat → α) (o : SimpleVector α)
    (h : o.size_ ≤ o.array_.length) :
    copyConstruct junk o = some
      ({ array_ := moveAcross o.size_ o.array_ 0
          (fillUp default o.size_ (ArrayPtr.alloc junk o.size_) 0) 0,
         size_ := o.size_, capacity_ := o.size_ }, o) := by
  have hc := std_copy_into_eq o.array_ (fillUp default o.size_ (ArrayPtr.alloc junk o.size_) 0)
    0 o.size_ 0 (Nat.zero_le _) h (by rw [length_fillUp, length_alloc]; omega)
  simp only [Nat.cast_zero, Nat.sub_zero] at hc
  simp only [copyConstruct, ofSize_eq, begin, end_, GetSize, hc, swap, Option.bind_eq_bind,
    Option.some_bind]

theorem Resize_empty [Inhabited α] (junk : Nat → α) (n : Nat) (hn : 0 < n) :
    Resize junk (empty : SimpleVector α) n = some
      { array_ := fillUp default n (ArrayPtr.alloc junk n) 0, size_ := n, capacity_ := n } := by
  have hr := Resize_grow junk (empty : SimpleVector α) n hn hn (by simp [empty])
  simpa only [empty, Nat.sub_zero, moveAcross] using hr

/-- The move constructor on a vector whose live elements lie in its buffer. -/
theorem moveConstruct_spec [Inhabited α] (junk : Nat → α) (o : SimpleVector α)
    (h : o.size_ ≤ o.array_.length) :
    ∃ w : SimpleVector α,
      moveConstruct junk o = some (w, { o with size_ := 0, capacity_ := 0 }) ∧
      w.size_ = o.size_ ∧ w.capacity_ = o.size_ ∧ w.array_.length = o.size_ ∧
      w.toList = o.toList := by
  by_cases h0 : o.size_ = 0
  · have hr : Resize junk (empty : SimpleVector α) o.size_ = some empty := by
      rw [h0]; exact Resize_shrink junk empty 0 (Nat.le_refl _)
    have hm := std_move_into_eq o.array_ ([] : List α) 0 0 0 (Nat.le_refl _) (Nat.zero_le _)
      (by simp)
    simp only [Nat.cast_zero, Nat.sub_zero] at hm
    refine ⟨empty, ?_, ?_, ?_, ?_, ?_⟩
    · simp only [moveConstruct, hr, begin, end_, GetSize, h0, Nat.cast_zero, empty, hm,
        Option.bind_eq_bind, Option.some_bind]
      rfl
    · rw [h0]; rfl
    · rw [h0]; rfl
    · rw [h0]; rfl
    · simp [toList, empty, h0]
  · have hr := Resize_empty junk o.size_ (by omega)
    have hlen : (fillUp default o.size_ (ArrayPtr.alloc junk o.size_) 0).length = o.size_ := by
      rw [length_fillUp, length_alloc]
    have hm := std_move_into_eq o.array_ (fillUp default o.size_ (ArrayPtr.alloc junk o.size_) 0)
      0 o.size_ 0 (Nat.zero_le _) h (by rw [hlen]; omega)
    simp only [Nat.cast_zero, Nat.sub_zero] at hm
    refine ⟨{ array_ := moveAcross o.size_ o.array_ 0
                (fillUp default o.size_ (ArrayPtr.alloc junk o.size_) 0) 0,
              size_ := o.size_, capacity_ := o.size_ }, ?_, rfl, rfl, ?_, ?_⟩
    · simp only [moveConstruct, hr, begin, end_, GetSize, hm, Option.bind_eq_bind,
        Option.some_bind]
    · show (moveAcross o.size_ o.array_ 0 _ 0).length = o.size_
      rw [length_moveAcross, hlen]
    · show (moveAcross o.size_ o.array_ 0 _ 0).take o.size_ = o.array_.take o.size_
      exact take_moveAcross o.size_ o.array_ _ h (by rw [hlen])

theorem toList_copy [Inhabited α] (junk : Nat → α) (o : SimpleVector α)
    (h : o.size_ ≤ o.array_.length) :
    (moveAcross o.size_ o.array_ 0
      (fillUp default o.size_ (ArrayPtr.alloc junk o.size_) 0) 0).take o.size_ = o.toList :=
  take_moveAcross o.size_ o.array_ _ h (by rw [length_fillUp, length_alloc])

/-- The guard `*this != rhs` of the assignment operators on vectors with the
same live sequence, for an element type whose `==` is equality. -/
theorem op_ne_of_eq [BEq α] [LawfulBEq α] (a b : SimpleVector α)
    (ha : a.size_ ≤ a.array_.length) (hb : b.size_ ≤ b.array_.length)
    (h : a.toList = b.toList) : op_ne a b = some false := by
  simp only [op_ne, op_eq_eq_beq a b ha hb, Option.map_some', h, beq_self_eq_true, Bool.not_true]

/-- The guard `*this != rhs` of the assignment operators on vectors with
different live sequences. -/
theorem op_ne_of_ne [BEq α] [LawfulBEq α] (a b : SimpleVector α)
    (ha : a.size_ ≤ a.array_.length) (hb : b.size_ ≤ b.array_.length)
    (h : a.toList ≠ b.toList) : op_ne a b = some true := by
  have hf : (a.toList == b.toList) = false := by
    rw [Bool.eq_false_iff]
    intro e
    exact h (beq_iff_eq.mp e)
  simp only [op_ne, op_eq_eq_beq a b ha hb, Option.map_some', hf, Bool.not_false]

end SimpleVector
end SimpleVec

namespace SimpleVec

/-! ## The representation invariant along every operation -/

theorem length_of_std_move_backward {α : Type} (buf a : List α) (first last d_last : Int)
    (h : std_move_backward buf first last d_last = some a) : a.length = buf.length := by
  unfold std_move_backward at h
  split at h
  · rw [← Option.some.inj h, length_moveDown]
  · cases h

theorem length_of_std_move {α : Type} (buf a : List α) (first last d_first : Int)
    (h : std_move buf first last d_first = some a) : a.length = buf.length := by
  unfold std_move at h
  split at h
  · rw [← Option.some.inj h, length_moveUp]
  · cases h

theorem length_of_store {α : Type} (buf a : List α) (it : Int) (x : α)
    (h : store buf it x = some a) : a.length = buf.length := by
  unfold store at h
  split at h
  · rw [← Option.some.inj h, List.length_set]
  · cases h

namespace SimpleVector

variable {α : Type}

/-- The representation invariant, with the capacity equal to the number of
slots of the buffer when `tight` is set. -/
theorem Resize_keeps [Inhabited α] (junk : Nat → α) (v w : SimpleVector α) (n : Nat)
    (hwf : v.WF) (h : Resize junk v n = some w) :
    w.WF ∧ (v.capacity_ = v.array_.length → w.capacity_ = w.array_.length) := by
  obtain ⟨h1, h2⟩ := hwf
  by_cases hn : n ≤ v.size_
  · rw [Resize_shrink junk v n hn] at h
    rw [← Option.some.inj h]
    exact ⟨⟨by show n ≤ v.capacity_; omega, h2⟩, fun e => e⟩
  · by_cases hc : n ≤ v.capacity_
    · rw [Resize_inplace junk v n (by omega) hc h2] at h
      rw [← Option.some.inj h]
      refine ⟨⟨hc, ?_⟩, fun e => ?_⟩
      · show v.capacity_ ≤ (fillUp default (n - v.size_) v.array_ v.size_).length
        rw [length_fillUp]; exact h2
      · show v.capacity_ = (fillUp default (n - v.size_) v.array_ v.size_).length
        rw [length_fillUp]; exact e
    · rw [Resize_grow junk v n (by omega) (by omega) (by omega)] at h
      rw [← Option.some.inj h]
      have hlen : (fillUp default (n - v.size_)
          (moveAcross v.size_ v.array_ 0 (ArrayPtr.alloc junk n) 0) v.size_).length = n := by
        rw [length_fillUp, length_moveAcross, length_alloc]
      exact ⟨⟨Nat.le_refl _, by show n ≤ _; rw [hlen]⟩, fun _ => by show n = _; rw [hlen]⟩

theorem Reserve_keeps (junk : Nat → α) (v w : SimpleVector α) (n : Nat)
    (hwf : v.WF) (h : Reserve junk v n = some w) :
    w.WF ∧ (v.capacity_ = v.array_.length → w.capacity_ = w.array_.length) := by
  obtain ⟨h1, h2⟩ := hwf
  by_cases hc : n ≤ v.capacity_
  · rw [Reserve_noop junk v n hc] at h
    rw [← Option.some.inj h]
    exact ⟨⟨h1, h2⟩, fun e => e⟩
  · rw [Reserve_grow junk v n (by omega) (by omega) (by omega)] at h
    rw [← Option.some.inj h]
    have hlen : (moveAcross v.size_ v.array_ 0 (ArrayPtr.alloc junk n) 0).length = n := by
      rw [length_moveAcross, length_alloc]
    exact ⟨⟨by show v.size_ ≤ n; omega, by show n ≤ _; rw [hlen]⟩,
      fun _ => by show n = _; rw [hlen]⟩

theorem Insert_keeps [Inhabited α] (junk : Nat → α) (v w : SimpleVector α) (pos it : Int)
    (x : α) (hwf : v.WF) (h : Insert junk v pos x = some (w, it)) :
    w.WF ∧ (v.capacity_ = v.array_.length → w.capacity_ = w.array_.length) := by
  obtain ⟨h1, h2⟩ := hwf
  simp only [Insert, GetSize, GetCapacity, begin, end_, sub_zero, zero_add,
    Option.bind_eq_bind] at h
  by_cases hc : v.size_ ≥ v.capacity_
  · have hg := grow_gt v.size_
    have hr := Resize_grow junk v (grow v.size_) hg (by omega) (by omega)
    unfold grow at hr hg
    rw [if_pos hc, hr] at h
    simp only [Option.some_bind] at h
    cases hm : std_move_backward (fillUp default ((if v.size_ ≠ 0 then v.size_ * 2 else 1) - v.size_)
        (moveAcross v.size_ v.array_ 0
          (ArrayPtr.alloc junk (if v.size_ ≠ 0 then v.size_ * 2 else 1)) 0) v.size_)
        (toInt pos) (((v.size_ + 1 : Nat) : Int) - 1) ((v.size_ + 1 : Nat) : Int) with
    | none => rw [hm] at h; cases h
    | some a =>
      rw [hm] at h
      simp only [Option.some_bind] at h
      cases hs : store a (toInt pos) x with
      | none => rw [hs] at h; cases h
      | some a2 =>
        rw [hs] at h
        simp only [Option.some_bind, Option.some.injEq, Prod.mk.injEq] at h
        have hl1 := length_of_std_move_backward _ _ _ _ _ hm
        have hl2 := length_of_store _ _ _ _ hs
        rw [length_fillUp, length_moveAcross, length_alloc] at hl1
        rw [← h.1]
        refine ⟨⟨?_, ?_⟩, fun _ => ?_⟩
        · show v.size_ + 1 ≤ (if v.size_ ≠ 0 then v.size_ * 2 else 1)
          omega
        · show (if v.size_ ≠ 0 then v.size_ * 2 else 1) ≤ a2.length
          rw [hl2, hl1]
        · show (if v.size_ ≠ 0 then v.size_ * 2 else 1) = a2.length
          rw [hl2, hl1]
  · rw [if_neg hc] at h
    cases hm : std_move_backward v.array_ (toInt pos) (v.size_ : Int) ((v.size_ : Int) + 1) with
    | none => rw [hm] at h; cases h
    | some a =>
      rw [hm] at h
      simp only [Option.some_bind] at h
      cases hs : store a (toInt pos) x with
      | none => rw [hs] at h; cases h
      | some a2 =>
        rw [hs] at h
        simp only [Option.some_bind, Option.some.injEq, Prod.mk.injEq] at h
        have hl1 := length_of_std_move_backward _ _ _ _ _ hm
        have hl2 := length_of_store _ _ _ _ hs
        rw [← h.1]
        exact ⟨⟨by show v.size_ + 1 ≤ v.capacity_; omega,
          by show v.capacity_ ≤ a2.length; rw [hl2, hl1]; exact h2⟩,
          fun e => by show v.capacity_ = a2.length; rw [hl2, hl1]; exact e⟩

theorem Erase_keeps (v w : SimpleVector α) (pos it : Int)
    (hwf : v.WF) (h : Erase v pos = some (w, it)) :
    w.WF ∧ (v.capacity_ = v.array_.length → w.capacity_ = w.array_.length) := by
  obtain ⟨h1, h2⟩ := hwf
  simp only [Erase, begin, end_, GetSize, sub_zero, zero_add, Option.bind_eq_bind] at h
  cases hm : std_move v.array_ (toInt pos + 1) (v.size_ : Int) (toInt pos) with
  | none => rw [hm] at h; cases h
  | some a =>
    rw [hm] at h
    simp only [Option.some_bind, Option.some.injEq, Prod.mk.injEq] at h
    have hl := length_of_std_move _ _ _ _ _ hm
    rw [← h.1]
    exact ⟨⟨by show v.size_ - 1 ≤ v.capacity_; omega,
      by show v.capacity_ ≤ a.length; rw [hl]; exact h2⟩,
      fun e => by show v.capacity_ = a.length; rw [hl]; exact e⟩

theorem assign_keeps (v w : SimpleVector α) (i : Nat) (x : α)
    (hwf : v.WF) (h : assign v i x = some w) :
    w.WF ∧ (v.capacity_ = v.array_.length → w.capacity_ = w.array_.length) := by
  obtain ⟨h1, h2⟩ := hwf
  simp only [assign, Option.bind_eq_bind] at h
  cases hs : store v.array_ (i : Int) x with
  | none => rw [hs] at h; cases h
  | some a =>
    rw [hs] at h
    simp only [Option.some_bind, Option.some.injEq] at h
    have hl := length_of_store _ _ _ _ hs
    rw [← h]
    exact ⟨⟨h1, by show v.capacity_ ≤ a.length; rw [hl]; exact h2⟩,
      fun e => by show v.capacity_ = a.length; rw [hl]; exact e⟩

theorem copyConstruct_keeps [Inhabited α] (junk : Nat → α) (o v o1 : SimpleVector α)
    (hwf : o.WF) (h : copyConstruct junk o = some (v, o1)) :
    v.WF ∧ v.capacity_ = v.array_.length ∧ o1 = o := by
  rw [copyConstruct_eq junk o (Nat.le_trans hwf.1 hwf.2)] at h
  simp only [Option.some.injEq, Prod.mk.injEq] at h
  have hlen : (moveAcross o.size_ o.array_ 0
      (fillUp default o.size_ (ArrayPtr.alloc junk o.size_) 0) 0).length = o.size_ := by
    rw [length_moveAcross, length_fillUp, length_alloc]
  rw [← h.1, ← h.2]
  exact ⟨⟨Nat.le_refl _, by show o.size_ ≤ _; rw [hlen]⟩, by show o.size_ = _; rw [hlen], rfl⟩

theorem moveConstruct_keeps [Inhabited α] (junk : Nat → α) (o v o1 : SimpleVector α)
    (hwf : o.WF) (h : moveConstruct junk o = some (v, o1)) :
    v.WF ∧ v.capacity_ = v.array_.length ∧ o1.WF := by
  obtain ⟨w, hw, hs, hc, hl, _⟩ := moveConstruct_spec junk o (Nat.le_trans hwf.1 hwf.2)
  rw [hw] at h
  simp only [Option.some.injEq, Prod.mk.injEq] at h
  rw [← h.1, ← h.2]
  exact ⟨⟨by omega, by omega⟩, by omega, ⟨Nat.le_refl _, Nat.zero_le _⟩⟩

end SimpleVector
end SimpleVec

namespace SimpleVec
namespace SimpleVector

variable {α : Type}

theorem copyAssign_cases [Inhabited α] [BEq α] (junk : Nat → α) (a b a1 b1 : SimpleVector α)
    (ha : a.WF) (hb : b.WF) (h : copyAssign junk a b = some (a1, b1)) :
    (a1 = a ∨ ∃ o1, copyConstruct junk b = some (a1, o1)) ∧ b1 = b := by
  have ha1 : a.size_ ≤ a.array_.length := Nat.le_trans ha.1 ha.2
  have hb1 : b.size_ ≤ b.array_.length := Nat.le_trans hb.1 hb.2
  have hn : op_ne a b = some (!(a.toList == b.toList)) := by
    simp only [op_ne, op_eq_eq_beq a b ha1 hb1, Option.map_some']
  simp only [copyAssign, hn, Option.bind_eq_bind, Option.some_bind] at h
  cases hd : (a.toList == b.toList) with
  | true =>
    rw [hd] at h
    simp only [Bool.not_true, Bool.false_eq_true, if_false, Option.some.injEq,
      Prod.mk.injEq] at h
    exact ⟨Or.inl h.1.symm, h.2.symm⟩
  | false =>
    rw [hd] at h
    simp only [Bool.not_false, if_true, copyConstruct_eq junk b hb1, swap, Option.some_bind,
      Option.some.injEq, Prod.mk.injEq] at h
    refine ⟨Or.inr ⟨b, ?_⟩, h.2.symm⟩
    rw [copyConstruct_eq junk b hb1, ← h.1]

theorem moveAssign_cases [BEq α] (a b a1 b1 : SimpleVector α)
    (ha : a.WF) (hb : b.WF) (h : moveAssign a b = some (a1, b1)) :
    (a1 = a ∧ b1 = b) ∨ (a1 = b ∧ b1 = a) := by
  have ha1 : a.size_ ≤ a.array_.length := Nat.le_trans ha.1 ha.2
  have hb1 : b.size_ ≤ b.array_.length := Nat.le_trans hb.1 hb.2
  have hn : op_ne a b = some (!(a.toList == b.toList)) := by
    simp only [op_ne, op_eq_eq_beq a b ha1 hb1, Option.map_some']
  simp only [moveAssign, hn, Option.bind_eq_bind, Option.some_bind] at h
  cases hd : (a.toList == b.toList) with
  | true =>
    rw [hd] at h
    simp only [Bool.not_true, Bool.false_eq_true, if_false, Option.some.injEq,
      Prod.mk.injEq] at h
    exact Or.inl ⟨h.1.symm, h.2.symm⟩
  | false =>
    rw [hd] at h
    simp only [Bool.not_false, if_true, swap, Option.some.injEq, Prod.mk.injEq] at h
    exact Or.inr ⟨h.1.symm, h.2.symm⟩

/-- Every vector a program can hold satisfies the representation invariant,
and its capacity is the number of slots of its buffer unless a source of a
move construction is part of its history. -/
theorem Reach_invariant [Inhabited α] [BEq α] (moved : Bool) (v : SimpleVector α)
    (h : Reach moved v) :
    v.WF ∧ (moved = false → v.capacity_ = v.array_.length) := by
  induction h with
  | ctor_default => exact ⟨WF_empty, fun _ => rfl⟩
  | ctor_size junk n v hv =>
    rw [ofSize_eq] at hv
    rw [← Option.some.inj hv]
    have hlen : (fillUp default n (ArrayPtr.alloc junk n) 0).length = n := by
      rw [length_fillUp, length_alloc]
    exact ⟨⟨Nat.le_refl _, by show n ≤ _; rw [hlen]⟩, fun _ => by show n = _; rw [hlen]⟩
  | ctor_size_value junk n x v hv =>
    rw [ofSizeValue_eq] at hv
    rw [← Option.some.inj hv]
    have hlen : (fillUp x n (ArrayPtr.alloc junk n) 0).length = n := by
      rw [length_fillUp, length_alloc]
    exact ⟨⟨Nat.le_refl _, by show n ≤ _; rw [hlen]⟩, fun _ => by show n = _; rw [hlen]⟩
  | ctor_init_list junk init v hv =>
    rw [ofInit_eq] at hv
    rw [← Option.some.inj hv]
    have hlen : (moveAcross init.length init 0 (ArrayPtr.alloc junk init.length) 0).length
        = init.length := by
      rw [length_moveAcross, length_alloc]
    exact ⟨⟨Nat.le_refl _, by show init.length ≤ _; rw [hlen]⟩,
      fun _ => by show init.length = _; rw [hlen]⟩
  | ctor_reserve junk n v hv =>
    have hk := Reserve_keeps junk empty v n WF_empty hv
    exact ⟨hk.1, fun _ => hk.2 rfl⟩
  | ctor_copy junk o v o1 _ hc ih =>
    have hk := copyConstruct_keeps junk o v o1 ih.1 hc
    exact ⟨hk.1, fun _ => hk.2.1⟩
  | ctor_copy_source junk o v o1 _ hc ih =>
    have hk := copyConstruct_keeps junk o v o1 ih.1 hc
    rw [hk.2.2]
    exact ih
  | ctor_move junk o v o1 _ hc ih =>
    have hk := moveConstruct_keeps junk o v o1 ih.1 hc
    exact ⟨hk.1, fun _ => hk.2.1⟩
  | ctor_move_source junk o v o1 hm _ hc ih =>
    have hk := moveConstruct_keeps junk o v o1 ih.1 hc
    exact ⟨hk.2.2, fun hf => by rw [hm] at hf; cases hf⟩
  | clear v _ ih =>
    exact ⟨⟨Nat.zero_le _, ih.1.2⟩, ih.2⟩
  | resize junk v n w _ hr ih =>
    have hk := Resize_keeps junk v w n ih.1 hr
    exact ⟨hk.1, fun hf => hk.2 (ih.2 hf)⟩
  | reserve junk v n w _ hr ih =>
    have hk := Reserve_keeps junk v w n ih.1 hr
    exact ⟨hk.1, fun hf => hk.2 (ih.2 hf)⟩
  | push_back junk v x w _ hp ih =>
    simp only [PushBack, Option.map_eq_some'] at hp
    obtain ⟨⟨w1, it⟩, hi, e⟩ := hp
    have hk := Insert_keeps junk v w1 _ it x ih.1 hi
    simp only at e
    rw [← e]
    exact ⟨hk.1, fun hf => hk.2 (ih.2 hf)⟩
  | insert junk v pos x w it _ hi ih =>
    have hk := Insert_keeps junk v w pos it x ih.1 hi
    exact ⟨hk.1, fun hf => hk.2 (ih.2 hf)⟩
  | pop_back v _ ih =>
    by_cases h0 : v.size_ = 0
    · have e : v.PopBack = v := by simp [PopBack, IsEmpty, h0]
      rw [e]; exact ih
    · have e : v.PopBack = { v with size_ := v.size_ - 1 } := by simp [PopBack, IsEmpty, h0]
      rw [e]
      exact ⟨⟨by show v.size_ - 1 ≤ v.capacity_; have := ih.1.1; omega, ih.1.2⟩, ih.2⟩
  | erase v pos w it _ he ih =>
    have hk := Erase_keeps v w pos it ih.1 he
    exact ⟨hk.1, fun hf => hk.2 (ih.2 hf)⟩
  | write v i x w _ ha ih =>
    have hk := assign_keeps v w i x ih.1 ha
    exact ⟨hk.1, fun hf => hk.2 (ih.2 hf)⟩
  | swap_this a b _ _ iha ihb => exact ihb
  | swap_other a b _ _ iha ihb => exact iha
  | copy_assign_this junk a b a1 b1 _ _ hc iha ihb =>
    rcases (copyAssign_cases junk a b a1 b1 iha.1 ihb.1 hc).1 with e | ⟨o1, ho⟩
    · rw [e]; exact iha
    · have hk := copyConstruct_keeps junk b a1 o1 ihb.1 ho
      exact ⟨hk.1, fun _ => hk.2.1⟩
  | copy_assign_rhs junk a b a1 b1 _ _ hc iha ihb =>
    rw [(copyAssign_cases junk a b a1 b1 iha.1 ihb.1 hc).2]
    exact ihb
  | move_assign_this a b a1 b1 _ _ hc iha ihb =>
    rcases moveAssign_cases a b a1 b1 iha.1 ihb.1 hc with ⟨e, _⟩ | ⟨e, _⟩
    · rw [e]; exact iha
    · rw [e]; exact ihb
  | move_assign_rhs a b a1 b1 _ _ hc iha ihb =>
    rcases moveAssign_cases a b a1 b1 iha.1 ihb.1 hc with ⟨_, e⟩ | ⟨_, e⟩
    · rw [e]; exact ihb
    · rw [e]; exact iha

end SimpleVector
end SimpleVec

namespace SimpleVec

/-! ## Operator `<` over an arbitrary element order -/

/-- The loop of `std::lexicographical_compare` over two ranges inside their
buffers decides the lexicographic comparison of the two slices for any `<` on
the elements: elements of which neither is less than the other are passed
over. -/
theorem lexLoop_iff_lt {α : Type} [LT α] [DecidableRel (fun x y : α => x < y)] (k : Nat)
    (a : List α) (f1 : Nat) (b : List α) (f2 l2 : Nat) (ha : f1 + k ≤ a.length)
    (h2 : f2 ≤ l2) (hb : l2 ≤ b.length) :
    ∃ r : Bool, lexLoop k a f1 b f2 l2 = some r ∧
      (r = true ↔ List.lt ((a.drop f1).take k) ((b.drop f2).take (l2 - f2))) := by
  induction k generalizing f1 f2 with
  | zero =>
    refine ⟨decide (f2 ≠ l2), rfl, ?_⟩
    rw [List.take_zero, decide_eq_true_iff]
    constructor
    · intro hne
      have hlt : f2 < b.length := by omega
      have e : l2 - f2 = (l2 - (f2 + 1)) + 1 := by omega
      rw [List.drop_eq_getElem_cons hlt, e, List.take_succ_cons]
      exact List.lt.nil _ _
    · intro hlex hEq
      subst hEq
      rw [Nat.sub_self, List.take_zero] at hlex
      cases hlex
  | succ k ih =>
    have h1 : f1 < a.length := by omega
    rw [lexLoop, List.drop_eq_getElem_cons h1, List.take_succ_cons]
    by_cases he : f2 = l2
    · subst he
      refine ⟨false, by simp, ?_⟩
      rw [Nat.sub_self, List.take_zero]
      simp only [Bool.false_eq_true, false_iff]
      intro hlex
      cases hlex
    · have hlt : f2 < b.length := by omega
      have e : l2 - f2 = (l2 - (f2 + 1)) + 1 := by omega
      rw [if_neg he, List.getElem?_eq_getElem h1, List.getElem?_eq_getElem hlt,
        List.drop_eq_getElem_cons hlt, e, List.take_succ_cons]
      simp only []
      generalize a[f1] = x
      generalize b[f2] = y
      by_cases hxy : x < y
      · exact ⟨true, by rw [if_pos hxy], by simp [List.lt.head _ _ hxy]⟩
      · by_cases hyx : y < x
        · refine ⟨false, by rw [if_neg hxy, if_pos hyx], ?_⟩
          simp only [Bool.false_eq_true, false_iff]
          intro hlex
          cases hlex with
          | head _ _ h => exact hxy h
          | tail _ h _ => exact h hyx
        · obtain ⟨r, hr, hiff⟩ := ih (f1 + 1) (f2 + 1) (by omega) (by omega)
          refine ⟨r, by rw [if_neg hxy, if_neg hyx, hr], ?_⟩
          rw [hiff]
          constructor
          · intro h
            exact List.lt.tail hxy hyx h
          · intro h
            cases h with
            | head _ _ h => exact absurd h hxy
            | tail _ _ h => exact h

namespace SimpleVector

variable {α : Type}

/-- Operator `<` decides the lexicographic comparison of the live sequences
for any `<` on the elements. -/
theorem op_lt_iff_lt [LT α] [DecidableRel (fun x y : α => x < y)] (a b : SimpleVector α)
    (ha : a.size_ ≤ a.array_.length) (hb : b.size_ ≤ b.array_.length) :
    ∃ r : Bool, op_lt a b = some r ∧ (r = true ↔ List.lt a.toList b.toList) := by
  have hv : validRange a.array_.length (0 : Int) (a.size_ : Int) ∧
      validRange b.array_.length (0 : Int) (b.size_ : Int) := by
    unfold validRange; omega
  have hn : ((a.size_ : Int) - 0).toNat = a.size_ := by omega
  obtain ⟨r, hr, hiff⟩ := lexLoop_iff_lt a.size_ a.array_ 0 b.array_ 0 b.size_ (by omega)
    (Nat.zero_le _) hb
  refine ⟨r, ?_, ?_⟩
  · simp only [op_lt, std_lexicographical_compare, begin, end_, GetSize, if_pos hv, hn,
      Int.toNat_zero, Int.toNat_ofNat, hr]
  · simpa only [List.drop_zero, Nat.sub_zero, toList] using hiff

end SimpleVector
end SimpleVec

namespace SimpleVec
namespace SimpleVector

variable {α : Type}

/-! ## Every operation returns -/

/-- Every constructor returns a vector, and every operation on vectors that
satisfy the representation invariant returns: `Resize`, `Reserve`, the copy and
the move constructor and both assignments always, `Insert`, `PushBack` and
`Erase` for positions within the live range that are below `2^31`. -/
theorem operations_return [Inhabited α] [BEq α] (junk : Nat → α) (v b : SimpleVector α)
    (hv : v.WF) (hb : b.WF) :
    (∀ n, ∃ w, ofSize junk n = some w) ∧
    (∀ n x, ∃ w, ofSizeValue junk n x = some w) ∧
    (∀ init, ∃ w, ofInit junk init = some w) ∧
    (∀ n, ∃ w, ofReserve junk n = some w) ∧
    (∃ r, copyConstruct junk v = some r) ∧
    (∃ r, moveConstruct junk v = some r) ∧
    (∀ n, ∃ w, Resize junk v n = some w) ∧
    (∀ n, ∃ w, Reserve junk v n = some w) ∧
    (∀ (p : Nat) (x : α), p ≤ v.size_ → p < 2147483648 →
      ∃ r, Insert junk v (p : Int) x = some r) ∧
    (∀ x : α, v.size_ < 2147483648 → ∃ w, PushBack junk v x = some w) ∧
    (∀ p : Nat, p < v.size_ → p < 2147483648 → ∃ r, Erase v (p : Int) = some r) ∧
    (∃ r, copyAssign junk v b = some r) ∧
    (∃ r, moveAssign v b = some r) := by
  have hv1 : v.size_ ≤ v.array_.length := Nat.le_trans hv.1 hv.2
  have hb1 : b.size_ ≤ b.array_.length := Nat.le_trans hb.1 hb.2
  have hn : op_ne v b = some (!(v.toList == b.toList)) := by
    simp only [op_ne, op_eq_eq_beq v b hv1 hb1, Option.map_some']
  refine ⟨fun n => ⟨_, ofSize_eq junk n⟩, fun n x => ⟨_, ofSizeValue_eq junk n x⟩,
    fun init => ⟨_, ofInit_eq junk init⟩, ?_, ⟨_, copyConstruct_eq junk v hv1⟩, ?_, ?_, ?_,
    ?_, ?_, ?_, ?_, ?_⟩
  · intro n
    obtain ⟨w, hw, _⟩ := Reserve_spec junk (empty : SimpleVector α) n WF_empty
    exact ⟨w, hw⟩
  · obtain ⟨w, hw, _⟩ := moveConstruct_spec junk v hv1
    exact ⟨_, hw⟩
  · intro n
    obtain ⟨w, hw, _⟩ := Resize_spec junk v n hv
    exact ⟨w, hw⟩
  · intro n
    obtain ⟨w, hw, _⟩ := Reserve_spec junk v n hv
    exact ⟨w, hw⟩
  · intro p x hp hi
    obtain ⟨w, hw, _⟩ := Insert_of_fits junk v p x hv hp hi
    exact ⟨_, hw⟩
  · intro x hi
    obtain ⟨w, hw, _⟩ := PushBack_of_fits junk v x hv hi
    exact ⟨w, hw⟩
  · intro p hp hi
    obtain ⟨w, hw, _⟩ := Erase_of_fits v p hv hp hi
    exact ⟨_, hw⟩
  · cases hd : (v.toList == b.toList) with
    | true =>
      refine ⟨(v, b), ?_⟩
      simp [copyAssign, hn, hd]
    | false =>
      refine ⟨(SimpleVector.mk (moveAcross b.size_ b.array_ 0
        (fillUp default b.size_ (ArrayPtr.alloc junk b.size_) 0) 0) b.size_ b.size_, b), ?_⟩
      simp [copyAssign, hn, hd, copyConstruct_eq junk b hb1, swap]
  · cases hd : (v.toList == b.toList) with
    | true =>
      refine ⟨(v, b), ?_⟩
      simp [moveAssign, hn, hd]
    | false =>
      refine ⟨(b, v), ?_⟩
      simp [moveAssign, hn, hd, swap]

/-- The copy constructor on a vector that satisfies the representation
invariant: it returns a vector of size and capacity `v.size` that compares
equal to `v` and holds the live sequence of `v`, and `v` as it was; an element
write below the size, `PushBack` at a size below `2^31` and `Erase` at a
position below `2^31` on the copy return. -/
theorem copyConstruct_spec [Inhabited α] [BEq α] [LawfulBEq α] (junk junk1 : Nat → α)
    (v : SimpleVector α) (hwf : v.WF) :
    ∃ c : SimpleVector α, copyConstruct junk v = some (c, v) ∧
      c.size_ = v.size_ ∧ c.capacity_ = v.size_ ∧
      op_eq c v = some true ∧ c.toList = v.toList ∧ c.WF ∧
      (∀ (i : Nat) (x : α), i < c.size_ → ∃ w, assign c i x = some w) ∧
      (∀ x : α, c.size_ < 2147483648 → ∃ w, PushBack junk1 c x = some w) ∧
      (∀ p : Nat, p < c.size_ → p < 2147483648 → ∃ r, Erase c (p : Int) = some r) := by
  have h1 : v.size_ ≤ v.array_.length := Nat.le_trans hwf.1 hwf.2
  have hlen : (moveAcross v.size_ v.array_ 0
      (fillUp default v.size_ (ArrayPtr.alloc junk v.size_) 0) 0).length = v.size_ := by
    rw [length_moveAcross, length_fillUp, length_alloc]
  have hl := toList_copy junk v h1
  have hcwf : (SimpleVector.mk (moveAcross v.size_ v.array_ 0
      (fillUp default v.size_ (ArrayPtr.alloc junk v.size_) 0) 0) v.size_ v.size_).WF :=
    ⟨Nat.le_refl _, by show v.size_ ≤ _; rw [hlen]⟩
  refine ⟨_, copyConstruct_eq junk v h1, rfl, rfl, ?_, hl, hcwf, ?_, ?_, ?_⟩
  · rw [op_eq_eq_beq _ v (by show v.size_ ≤ _; rw [hlen]) h1]
    show some (List.take v.size_ _ == v.toList) = some true
    rw [hl, beq_self_eq_true]
  · intro i x hi
    have hs := store_eq (moveAcross v.size_ v.array_ 0
      (fillUp default v.size_ (ArrayPtr.alloc junk v.size_) 0) 0) i x (by rw [hlen]; exact hi)
    refine ⟨SimpleVector.mk ((moveAcross v.size_ v.array_ 0
      (fillUp default v.size_ (ArrayPtr.alloc junk v.size_) 0) 0).set i x) v.size_ v.size_, ?_⟩
    simp only [assign, hs, Option.bind_eq_bind, Option.some_bind]
  · intro x hx
    obtain ⟨w, hw, _⟩ := PushBack_of_fits junk1 _ x hcwf hx
    exact ⟨w, hw⟩
  · intro p hp hi
    obtain ⟨w, hw, _⟩ := Erase_of_fits _ p hcwf hp hi
    exact ⟨(w, (p : Int)), hw⟩

/-! ## The claims on construction, assignment, comparison and invariants -/

/-- C12: the move constructor returns; the source is left with size 0 and
capacity 0, and the new vector has the size and the live sequence the source
had. -/
theorem C12_move_constructor [Inhabited α] (junk : Nat → α) (v : SimpleVector α)
    (hwf : v.WF) :
    ∃ w v1 : SimpleVector α, moveConstruct junk v = some (w, v1) ∧
      v1.size_ = 0 ∧ v1.capacity_ = 0 ∧
      w.size_ = v.size_ ∧ w.toList = v.toList := by
  obtain ⟨w, hw, hs, _, _, hl⟩ := moveConstruct_spec junk v (Nat.le_trans hwf.1 hwf.2)
  exact ⟨w, _, hw, rfl, rfl, hs, hl⟩

/-- C12 on the vector `[1, 2, 3]` of capacity 4. -/
theorem C12_move_constructor_witness :
    (SimpleVector.mk [1, 2, 3, 9] 3 4).WF ∧
    ∃ w v1 : SimpleVector Nat,
      moveConstruct (fun _ => 7) (SimpleVector.mk [1, 2, 3, 9] 3 4) = some (w, v1) ∧
      v1.size_ = 0 ∧ v1.capacity_ = 0 ∧
      w.size_ = (SimpleVector.mk [1, 2, 3, 9] 3 4).size_ ∧
      w.toList = (SimpleVector.mk [1, 2, 3, 9] 3 4).toList :=
  ⟨by decide, C12_move_constructor (fun _ => 7) (SimpleVector.mk [1, 2, 3, 9] 3 4) (by decide)⟩

/-- C13, as stated, fails: the move assignment of `[2, 3]` to the vector `[1]`
leaves the source holding `[1]` with size 1 and capacity 1, not in the empty
state. -/
theorem C13_move_assignment_source_not_empty :
    moveAssign (SimpleVector.mk [1] 1 1) (SimpleVector.mk [2, 3] 2 2) =
      some (SimpleVector.mk [2, 3] 2 2, SimpleVector.mk [1] 1 1) ∧
    ¬ ∃ a1 b1 : SimpleVector Nat,
      moveAssign (SimpleVector.mk [1] 1 1) (SimpleVector.mk [2, 3] 2 2) = some (a1, b1) ∧
        b1.size_ = 0 ∧ b1.capacity_ = 0 := by
  have h : moveAssign (SimpleVector.mk [1] 1 1) (SimpleVector.mk [2, 3] 2 2) =
      some (SimpleVector.mk [2, 3] 2 2, SimpleVector.mk [1] 1 1) := by decide
  refine ⟨h, ?_⟩
  rintro ⟨a1, b1, e, hs, _⟩
  rw [h] at e
  simp only [Option.some.injEq, Prod.mk.injEq] at e
  rw [← e.2] at hs
  exact absurd hs (by decide)

/-- C13, amended: the move assignment `a = std::move(b)` returns and leaves
`a` with the size and the live sequence `b` had; the source is not emptied:
when the two compared unequal they have exchanged their members, so `b` holds
what `a` held, and when they compared equal neither has changed. -/
theorem C13_move_assignment_swaps [BEq α] [LawfulBEq α] (a b : SimpleVector α)
    (ha : a.WF) (hb : b.WF) :
    ∃ a1 b1 : SimpleVector α, moveAssign a b = some (a1, b1) ∧
      a1.size_ = b.size_ ∧ a1.toList = b.toList ∧
      (op_eq a b = some false → a1 = b ∧ b1 = a) ∧
      (op_eq a b = some true → a1 = a ∧ b1 = b) := by
  have ha1 : a.size_ ≤ a.array_.length := Nat.le_trans ha.1 ha.2
  have hb1 : b.size_ ≤ b.array_.length := Nat.le_trans hb.1 hb.2
  have he := op_eq_eq_beq a b ha1 hb1
  by_cases h : a.toList = b.toList
  · have hn := op_ne_of_eq a b ha1 hb1 h
    have hs : a.size_ = b.size_ := by
      rw [← length_toList a ha1, ← length_toList b hb1, h]
    refine ⟨a, b, ?_, hs, h, ?_, fun _ => ⟨rfl, rfl⟩⟩
    · simp [moveAssign, hn]
    · intro e
      rw [he, h, beq_self_eq_true] at e
      cases e
  · have hn := op_ne_of_ne a b ha1 hb1 h
    refine ⟨b, a, ?_, rfl, rfl, fun _ => ⟨rfl, rfl⟩, ?_⟩
    · simp [moveAssign, hn, swap]
    · intro e
      rw [he] at e
      exact absurd (beq_iff_eq.mp (Option.some.inj e)) h

/-- C13, amended, on the vectors `[1]` and `[2, 3]`. -/
theorem C13_move_assignment_swaps_witness :
    (SimpleVector.mk [1] 1 1).WF ∧ (SimpleVector.mk [2, 3] 2 2).WF ∧
    ∃ a1 b1 : SimpleVector Nat,
      moveAssign (SimpleVector.mk [1] 1 1) (SimpleVector.mk [2, 3] 2 2) = some (a1, b1) ∧
      a1.size_ = (SimpleVector.mk [2, 3] 2 2).size_ ∧
      a1.toList = (SimpleVector.mk [2, 3] 2 2).toList ∧
      (op_eq (SimpleVector.mk [1] 1 1) (SimpleVector.mk [2, 3] 2 2) = some false →
        a1 = SimpleVector.mk [2, 3] 2 2 ∧ b1 = SimpleVector.mk [1] 1 1) ∧
      (op_eq (SimpleVector.mk [1] 1 1) (SimpleVector.mk [2, 3] 2 2) = some true →
        a1 = SimpleVector.mk [1] 1 1 ∧ b1 = SimpleVector.mk [2, 3] 2 2) :=
  ⟨by decide, by decide,
    C13_move_assignment_swaps (SimpleVector.mk [1] 1 1) (SimpleVector.mk [2, 3] 2 2)
      (by decide) (by decide)⟩

/-- C14: `a == b` returns, and returns `true` exactly when the sizes are equal
and `a[i] == b[i]` holds for every `i` below the size; the result depends on
the sizes and the live elements only, not on the capacities or on the slots at
or beyond the size; `a != b` returns the negation. -/
theorem C14_equality_operators [BEq α] (a b : SimpleVector α) (ha : a.WF) (hb : b.WF) :
    ∃ r : Bool, op_eq a b = some r ∧
      (r = true ↔ a.size_ = b.size_ ∧
        ∀ i, i < a.size_ → ∃ x y, a.array_[i]? = some x ∧ b.array_[i]? = some y ∧
          (x == y) = true) ∧
      (∀ a1 b1 : SimpleVector α, a1.WF → b1.WF → a1.toList = a.toList →
        b1.toList = b.toList → op_eq a1 b1 = some r) ∧
      op_ne a b = some (!r) := by
  have ha1 : a.size_ ≤ a.array_.length := Nat.le_trans ha.1 ha.2
  have hb1 : b.size_ ≤ b.array_.length := Nat.le_trans hb.1 hb.2
  have he := op_eq_eq_beq a b ha1 hb1
  refine ⟨a.toList == b.toList, he, ?_, ?_, ?_⟩
  · rw [list_beq_iff, length_toList a ha1, length_toList b hb1]
    constructor
    · rintro ⟨hs, h⟩
      refine ⟨hs, fun i hi => ?_⟩
      obtain ⟨x, y, hx, hy, hxy⟩ := h i hi
      rw [getElem?_toList a i hi] at hx
      rw [getElem?_toList b i (by omega)] at hy
      exact ⟨x, y, hx, hy, hxy⟩
    · rintro ⟨hs, h⟩
      refine ⟨hs, fun i hi => ?_⟩
      obtain ⟨x, y, hx, hy, hxy⟩ := h i hi
      rw [← getElem?_toList a i hi] at hx
      rw [← getElem?_toList b i (by omega)] at hy
      exact ⟨x, y, hx, hy, hxy⟩
  · intro a1 b1 ha2 hb2 e1 e2
    rw [op_eq_eq_beq a1 b1 (Nat.le_trans ha2.1 ha2.2) (Nat.le_trans hb2.1 hb2.2), e1, e2]
  · simp only [op_ne, he, Option.map_some']

/-- C14 on the vectors `[1, 2, 3]` of capacity 4 and `[1, 2, 3]` of capacity
3. -/
theorem C14_equality_operators_witness :
    (SimpleVector.mk [1, 2, 3, 9] 3 4).WF ∧ (SimpleVector.mk [1, 2, 3] 3 3).WF ∧
    ∃ r : Bool, op_eq (SimpleVector.mk [1, 2, 3, 9] 3 4) (SimpleVector.mk [1, 2, 3] 3 3) = some r ∧
      (r = true ↔ (SimpleVector.mk [1, 2, 3, 9] 3 4).size_ = (SimpleVector.mk [1, 2, 3] 3 3).size_ ∧
        ∀ i, i < (SimpleVector.mk [1, 2, 3, 9] 3 4).size_ →
          ∃ x y, (SimpleVector.mk [1, 2, 3, 9] 3 4).array_[i]? = some x ∧
            (SimpleVector.mk [1, 2, 3] 3 3).array_[i]? = some y ∧ (x == y) = true) ∧
      (∀ a1 b1 : SimpleVector Nat, a1.WF → b1.WF →
        a1.toList = (SimpleVector.mk [1, 2, 3, 9] 3 4).toList →
        b1.toList = (SimpleVector.mk [1, 2, 3] 3 3).toList → op_eq a1 b1 = some r) ∧
      op_ne (SimpleVector.mk [1, 2, 3, 9] 3 4) (SimpleVector.mk [1, 2, 3] 3 3) = some (!r) :=
  ⟨by decide, by decide,
    C14_equality_operators (SimpleVector.mk [1, 2, 3, 9] 3 4) (SimpleVector.mk [1, 2, 3] 3 3)
      (by decide) (by decide)⟩

/-- C15: over a linearly ordered element type `a < b` returns, and returns
`true` exactly when the live sequence of `a` is a proper prefix of the live
sequence of `b`, or at the first index where the two differ the element of `a`
is less than the element of `b`; capacities and slots beyond the size play no
part.  So `[1, 2, 3] < [1, 2, 4]` and `[1, 2] < [1, 2, 3]`. -/
theorem C15_less_is_lexicographic [LinearOrder α] (a b : SimpleVector α)
    (ha : a.WF) (hb : b.WF) :
    (∃ r : Bool, op_lt a b = some r ∧
      (r = true ↔
        (a.toList <+: b.toList ∧ a.size_ < b.size_) ∨
        ∃ (i : Nat) (x y : α), a.toList[i]? = some x ∧ b.toList[i]? = some y ∧
          a.toList.take i = b.toList.take i ∧ x < y)) ∧
    op_lt (SimpleVector.mk [1, 2, 3] 3 3) (SimpleVector.mk [1, 2, 4, 0] 3 4) = some true ∧
    op_lt (SimpleVector.mk [1, 2, 7] 2 3) (SimpleVector.mk [1, 2, 3] 3 3) = some true := by
  have ha1 : a.size_ ≤ a.array_.length := Nat.le_trans ha.1 ha.2
  have hb1 : b.size_ ≤ b.array_.length := Nat.le_trans hb.1 hb.2
  obtain ⟨r, hr, hiff⟩ := op_lt_iff_Lex a b ha1 hb1
  refine ⟨⟨r, hr, ?_⟩, by decide, by decide⟩
  rw [hiff, Lex_iff_prefix_or_first, length_toList a ha1, length_toList b hb1]

/-- C15 on the vectors `[1, 2]` and `[1, 3]`. -/
theorem C15_less_is_lexicographic_witness :
    (SimpleVector.mk [1, 2] 2 2).WF ∧ (SimpleVector.mk [1, 3, 0] 2 3).WF ∧
    ((∃ r : Bool, op_lt (SimpleVector.mk [1, 2] 2 2) (SimpleVector.mk [1, 3, 0] 2 3) = some r ∧
      (r = true ↔
        ((SimpleVector.mk [1, 2] 2 2).toList <+: (SimpleVector.mk [1, 3, 0] 2 3).toList ∧
          (SimpleVector.mk [1, 2] 2 2).size_ < (SimpleVector.mk [1, 3, 0] 2 3).size_) ∨
        ∃ (i : Nat) (x y : Nat), (SimpleVector.mk [1, 2] 2 2).toList[i]? = some x ∧
          (SimpleVector.mk [1, 3, 0] 2 3).toList[i]? = some y ∧
          (SimpleVector.mk [1, 2] 2 2).toList.take i =
            (SimpleVector.mk [1, 3, 0] 2 3).toList.take i ∧ x < y)) ∧
    op_lt (SimpleVector.mk [1, 2, 3] 3 3) (SimpleVector.mk [1, 2, 4, 0] 3 4) = some true ∧
    op_lt (SimpleVector.mk [1, 2, 7] 2 3) (SimpleVector.mk [1, 2, 3] 3 3) = some true) :=
  ⟨by decide, by decide,
    C15_less_is_lexicographic (SimpleVector.mk [1, 2] 2 2) (SimpleVector.mk [1, 3, 0] 2 3)
      (by decide) (by decide)⟩

/-- C16: over a linearly ordered element type all five operators return;
`a <= b` holds exactly when `a < b` or `a == b`, `a > b` is `b < a`, `a >= b`
holds exactly when `a > b` or `a == b`, and exactly one of `a < b`, `a == b`,
`a > b` holds. -/
theorem C16_derived_operators [LinearOrder α] (a b : SimpleVector α) (ha : a.WF) (hb : b.WF) :
    ∃ lt eq gt le ge : Bool,
      op_lt a b = some lt ∧ op_eq a b = some eq ∧ op_gt a b = some gt ∧
      op_le a b = some le ∧ op_ge a b = some ge ∧
      (le = true ↔ lt = true ∨ eq = true) ∧
      op_gt a b = op_lt b a ∧
      (ge = true ↔ gt = true ∨ eq = true) ∧
      (lt = true ∨ eq = true ∨ gt = true) ∧
      ¬ (lt = true ∧ eq = true) ∧ ¬ (lt = true ∧ gt = true) ∧ ¬ (eq = true ∧ gt = true) := by
  have ha1 : a.size_ ≤ a.array_.length := Nat.le_trans ha.1 ha.2
  have hb1 : b.size_ ≤ b.array_.length := Nat.le_trans hb.1 hb.2
  obtain ⟨lt, hlt, ilt⟩ := op_lt_iff_Lex a b ha1 hb1
  obtain ⟨gt, hgt, igt⟩ := op_lt_iff_Lex b a hb1 ha1
  have heq := op_eq_eq_beq a b ha1 hb1
  have ieq : (a.toList == b.toList) = true ↔ a.toList = b.toList := beq_iff_eq
  have htri := (List.Lex.isTrichotomous (fun x y : α => x < y)).trichotomous a.toList b.toList
  have hasym : ∀ l1 l2 : List α, List.Lex (fun x y : α => x < y) l1 l2 →
      ¬ List.Lex (fun x y : α => x < y) l2 l1 :=
    (List.Lex.isAsymm (fun x y : α => x < y)).asymm
  have n1 : ¬ (lt = true ∧ (a.toList == b.toList) = true) := by
    rintro ⟨h1, h2⟩
    have h3 := ilt.mp h1
    rw [ieq.mp h2] at h3
    exact hasym _ _ h3 h3
  have n2 : ¬ (lt = true ∧ gt = true) := by
    rintro ⟨h1, h2⟩
    exact hasym _ _ (ilt.mp h1) (igt.mp h2)
  have n3 : ¬ ((a.toList == b.toList) = true ∧ gt = true) := by
    rintro ⟨h1, h2⟩
    have h3 := igt.mp h2
    rw [ieq.mp h1] at h3
    exact hasym _ _ h3 h3
  have t1 : lt = true ∨ (a.toList == b.toList) = true ∨ gt = true := by
    rcases htri with h | h | h
    · exact Or.inl (ilt.mpr h)
    · exact Or.inr (Or.inl (ieq.mpr h))
    · exact Or.inr (Or.inr (igt.mpr h))
  refine ⟨lt, a.toList == b.toList, gt, !gt, !lt, hlt, heq, hgt, ?_, ?_, ?_, rfl, ?_, t1,
    n1, n2, n3⟩
  · simp only [op_le, hgt, Option.map_some']
  · simp only [op_ge, op_gt, hlt, Option.map_some']
  · cases lt <;> cases gt <;> cases hE : (a.toList == b.toList) <;> simp_all
  · cases lt <;> cases gt <;> cases hE : (a.toList == b.toList) <;> simp_all

/-- C16 on the vectors `[1, 2]` and `[1, 3]`. -/
theorem C16_derived_operators_witness :
    (SimpleVector.mk [1, 2] 2 2).WF ∧ (SimpleVector.mk [1, 3, 0] 2 3).WF ∧
    ∃ lt eq gt le ge : Bool,
      op_lt (SimpleVector.mk [1, 2] 2 2) (SimpleVector.mk [1, 3, 0] 2 3) = some lt ∧
      op_eq (SimpleVector.mk [1, 2] 2 2) (SimpleVector.mk [1, 3, 0] 2 3) = some eq ∧
      op_gt (SimpleVector.mk [1, 2] 2 2) (SimpleVector.mk [1, 3, 0] 2 3) = some gt ∧
      op_le (SimpleVector.mk [1, 2] 2 2) (SimpleVector.mk [1, 3, 0] 2 3) = some le ∧
      op_ge (SimpleVector.mk [1, 2] 2 2) (SimpleVector.mk [1, 3, 0] 2 3) = some ge ∧
      (le = true ↔ lt = true ∨ eq = true) ∧
      op_gt (SimpleVector.mk [1, 2] 2 2) (SimpleVector.mk [1, 3, 0] 2 3) =
        op_lt (SimpleVector.mk [1, 3, 0] 2 3) (SimpleVector.mk [1, 2] 2 2) ∧
      (ge = true ↔ gt = true ∨ eq = true) ∧
      (lt = true ∨ eq = true ∨ gt = true) ∧
      ¬ (lt = true ∧ eq = true) ∧ ¬ (lt = true ∧ gt = true) ∧ ¬ (eq = true ∧ gt = true) :=
  ⟨by decide, by decide,
    C16_derived_operators (SimpleVector.mk [1, 2] 2 2) (SimpleVector.mk [1, 3, 0] 2 3)
      (by decide) (by decide)⟩

/-- C17: `PopBack` is a total function of the vector.  On a non-empty vector
it lowers the size by exactly 1; on an empty vector it returns the vector as it
is, the size staying 0; the capacity and the buffer, so every element below the
new size, are the same in both cases. -/
theorem C17_PopBack (v : SimpleVector α) :
    (v.size_ ≠ 0 → v.PopBack.size_ + 1 = v.size_) ∧
    (v.size_ = 0 → v.PopBack = v ∧ v.PopBack.size_ = 0) ∧
    v.PopBack.capacity_ = v.capacity_ ∧
    v.PopBack.array_ = v.array_ ∧
    (∀ i, i < v.PopBack.size_ → v.PopBack.array_[i]? = v.array_[i]?) := by
  by_cases h : v.size_ = 0
  · have e : v.PopBack = v := by simp [PopBack, IsEmpty, h]
    rw [e]
    exact ⟨fun hn => absurd h hn, fun _ => ⟨rfl, h⟩, rfl, rfl, fun _ _ => rfl⟩
  · have e : v.PopBack = { v with size_ := v.size_ - 1 } := by simp [PopBack, IsEmpty, h]
    rw [e]
    exact ⟨fun _ => by show v.size_ - 1 + 1 = v.size_; omega, fun h0 => absurd h0 h, rfl, rfl,
      fun _ _ => rfl⟩

/-- C17 on the vector `[1, 2, 3]`, where `PopBack` leaves `[1, 2]`. -/
theorem C17_PopBack_witness :
    (SimpleVector.mk [1, 2, 3] 3 3).PopBack = SimpleVector.mk [1, 2, 3] 2 3 ∧
    (SimpleVector.mk [1, 2, 3] 3 3).PopBack.size_ + 1 = (SimpleVector.mk [1, 2, 3] 3 3).size_ :=
  ⟨by decide, (C17_PopBack (SimpleVector.mk [1, 2, 3] 3 3)).1 (by decide)⟩

/-- C18: `size <= capacity` holds for every vector that a constructor
(default, sized, sized with value, initializer list, copy, move, reserve hint)
produced and that any sequence of `Clear`, `Resize`, `Reserve`, `PushBack`,
`Insert`, `PopBack`, `Erase`, element writes, `swap`, copy and move assignment
changed, for both vectors of an operation on two and for the source of a move
construction. -/
theorem C18_size_le_capacity [Inhabited α] [BEq α] (moved : Bool) (v : SimpleVector α)
    (h : Reach moved v) : v.size_ ≤ v.capacity_ :=
  (Reach_invariant moved v h).1.1

/-- C18 on the source of the move construction from `{1, 2, 3}`. -/
theorem C18_size_le_capacity_witness :
    Reach true (SimpleVector.mk [1, 2, 3] 0 0) ∧
    (SimpleVector.mk [1, 2, 3] 0 0).size_ ≤ (SimpleVector.mk [1, 2, 3] 0 0).capacity_ :=
  ⟨Reach.ctor_move_source (fun _ => 7) (SimpleVector.mk [1, 2, 3] 3 3)
      (SimpleVector.mk [1, 2, 3] 3 3) (SimpleVector.mk [1, 2, 3] 0 0) rfl
      (Reach.ctor_init_list (fun _ => 7) [1, 2, 3] (SimpleVector.mk [1, 2, 3] 3 3) (by decide))
      (by decide),
    C18_size_le_capacity true (SimpleVector.mk [1, 2, 3] 0 0)
      (Reach.ctor_move_source (fun _ => 7) (SimpleVector.mk [1, 2, 3] 3 3)
        (SimpleVector.mk [1, 2, 3] 3 3) (SimpleVector.mk [1, 2, 3] 0 0) rfl
        (Reach.ctor_init_list (fun _ => 7) [1, 2, 3] (SimpleVector.mk [1, 2, 3] 3 3) (by decide))
        (by decide))⟩

/-- C19, as stated, fails: the vector `{1, 2, 3}` built from an initializer
list and then used as the source of a move construction records capacity 0
while the buffer it still owns has 3 slots. -/
theorem C19_moved_from_source_keeps_buffer :
    ofInit (fun _ => 7) [1, 2, 3] = some (SimpleVector.mk [1, 2, 3] 3 3) ∧
    moveConstruct (fun _ => 7) (SimpleVector.mk [1, 2, 3] 3 3) =
      some (SimpleVector.mk [1, 2, 3] 3 3, SimpleVector.mk [1, 2, 3] 0 0) ∧
    Reach true (SimpleVector.mk [1, 2, 3] 0 0) ∧
    (SimpleVector.mk [1, 2, 3] 0 0).capacity_ ≠ (SimpleVector.mk [1, 2, 3] 0 0).array_.length :=
  ⟨by decide, by decide,
    Reach.ctor_move_source (fun _ => 7) (SimpleVector.mk [1, 2, 3] 3 3)
      (SimpleVector.mk [1, 2, 3] 3 3) (SimpleVector.mk [1, 2, 3] 0 0) rfl
      (Reach.ctor_init_list (fun _ => 7) [1, 2, 3] (SimpleVector.mk [1, 2, 3] 3 3) (by decide))
      (by decide),
    by decide⟩

/-- C19, amended: `capacity <= buffer.length` holds for every vector that a
constructor produced and any sequence of operations changed, the source of a
move construction included; `capacity == buffer.length` holds for it when no
source of a move construction is part of its history; and the source of a move
construction is left with capacity 0 and the buffer it had. -/
theorem C19_capacity_within_buffer [Inhabited α] [BEq α] (moved : Bool) (v : SimpleVector α)
    (h : Reach moved v) :
    v.capacity_ ≤ v.array_.length ∧
    (moved = false → v.capacity_ = v.array_.length) ∧
    (∀ (junk : Nat → α) (w v1 : SimpleVector α), moveConstruct junk v = some (w, v1) →
      v1.capacity_ = 0 ∧ v1.array_ = v.array_ ∧ w.capacity_ = w.array_.length) := by
  have hi := Reach_invariant moved v h
  refine ⟨hi.1.2, hi.2, ?_⟩
  intro junk w v1 hm
  obtain ⟨w0, hw, _, hc, hl, _⟩ := moveConstruct_spec junk v (Nat.le_trans hi.1.1 hi.1.2)
  rw [hw] at hm
  simp only [Option.some.injEq, Prod.mk.injEq] at hm
  rw [← hm.1, ← hm.2]
  exact ⟨rfl, rfl, by omega⟩

/-- C19, amended, on the vector that the sized constructor builds for size
2. -/
theorem C19_capacity_within_buffer_witness :
    Reach false (SimpleVector.mk [0, 0] 2 2) ∧
    (SimpleVector.mk [0, 0] 2 2).capacity_ ≤ (SimpleVector.mk [0, 0] 2 2).array_.length ∧
    (false = false →
      (SimpleVector.mk [0, 0] 2 2).capacity_ = (SimpleVector.mk [0, 0] 2 2).array_.length) ∧
    (∀ (junk : Nat → Nat) (w v1 : SimpleVector Nat),
      moveConstruct junk (SimpleVector.mk [0, 0] 2 2) = some (w, v1) →
      v1.capacity_ = 0 ∧ v1.array_ = (SimpleVector.mk [0, 0] 2 2).array_ ∧
        w.capacity_ = w.array_.length) :=
  ⟨Reach.ctor_size (fun _ => 7) 2 (SimpleVector.mk [0, 0] 2 2) (by decide),
    C19_capacity_within_buffer false (SimpleVector.mk [0, 0] 2 2)
      (Reach.ctor_size (fun _ => 7) 2 (SimpleVector.mk [0, 0] 2 2) (by decide))⟩

/-- C20: the guard of both assignment operators compares the live sequences.
When `a` and `b` have the same size and the same live elements, copy
assignment and move assignment return both vectors as they were, whatever
their capacities; otherwise copy assignment leaves `a` with the live sequence
of `b` and capacity `b.size` and `b` as it was, and move assignment exchanges
the members of `a` and `b`. -/
theorem C20_assignment_guard [Inhabited α] [BEq α] [LawfulBEq α] (junk : Nat → α)
    (a b : SimpleVector α) (ha : a.WF) (hb : b.WF) :
    ((a.size_ = b.size_ ∧ a.toList = b.toList) →
      copyAssign junk a b = some (a, b) ∧ moveAssign a b = some (a, b)) ∧
    (¬ (a.size_ = b.size_ ∧ a.toList = b.toList) →
      (∃ a1 : SimpleVector α, copyAssign junk a b = some (a1, b) ∧
        a1.size_ = b.size_ ∧ a1.toList = b.toList ∧ a1.capacity_ = b.size_) ∧
      moveAssign a b = some (b, a)) := by
  have ha1 : a.size_ ≤ a.array_.length := Nat.le_trans ha.1 ha.2
  have hb1 : b.size_ ≤ b.array_.length := Nat.le_trans hb.1 hb.2
  constructor
  · rintro ⟨_, h⟩
    have hn := op_ne_of_eq a b ha1 hb1 h
    exact ⟨by simp [copyAssign, hn], by simp [moveAssign, hn]⟩
  · intro h
    have hne : a.toList ≠ b.toList := by
      intro e
      refine h ⟨?_, e⟩
      rw [← length_toList a ha1, ← length_toList b hb1, e]
    have hn := op_ne_of_ne a b ha1 hb1 hne
    refine ⟨⟨SimpleVector.mk (moveAcross b.size_ b.array_ 0
      (fillUp default b.size_ (ArrayPtr.alloc junk b.size_) 0) 0) b.size_ b.size_, ?_, rfl,
      toList_copy junk b hb1, rfl⟩, ?_⟩
    · simp only [copyAssign, hn, copyConstruct_eq junk b hb1, swap, Option.bind_eq_bind,
        Option.some_bind, if_true]
    · simp [moveAssign, hn, swap]

/-- C20 on the vectors `[2, 3]` of capacity 2 and `[2, 3]` of capacity 3. -/
theorem C20_assignment_guard_witness :
    (SimpleVector.mk [2, 3] 2 2).WF ∧ (SimpleVector.mk [2, 3, 7] 2 3).WF ∧
    (SimpleVector.mk [2, 3] 2 2).size_ = (SimpleVector.mk [2, 3, 7] 2 3).size_ ∧
    (SimpleVector.mk [2, 3] 2 2).toList = (SimpleVector.mk [2, 3, 7] 2 3).toList ∧
    copyAssign (fun _ => 7) (SimpleVector.mk [2, 3] 2 2) (SimpleVector.mk [2, 3, 7] 2 3) =
      some (SimpleVector.mk [2, 3] 2 2, SimpleVector.mk [2, 3, 7] 2 3) ∧
    moveAssign (SimpleVector.mk [2, 3] 2 2) (SimpleVector.mk [2, 3, 7] 2 3) =
      some (SimpleVector.mk [2, 3] 2 2, SimpleVector.mk [2, 3, 7] 2 3) :=
  ⟨by decide, by decide, by decide, by decide,
    (C20_assignment_guard (fun _ => 7) (SimpleVector.mk [2, 3] 2 2)
      (SimpleVector.mk [2, 3, 7] 2 3) (by decide) (by decide)).1 ⟨by decide, by decide⟩⟩

end SimpleVector
end SimpleVec

